import Mathlib

/-!
Verification of the affinity-mapping and rate-computation engine of the
`net` repository (files `net.py`, `msix.py`, `q.py`).

The Python sources are shallowly embedded below: every pure computation is
translated into an executable Lean definition over `List Char` / `Nat`;
each fallible Python function (one that can `raise`) becomes a function
into `Except` or `Option`.  Operating-system I/O (reading and writing the
sysfs pseudo-files) is modelled by explicit oracle records so that the
batching logic of `config_xps` can be stated and proved.

Modelling conventions, noted once here:
 * Python `str` values are modelled as `String` / `List Char`; the
   embeddings of `str.strip`, `str.isdigit`, `str.lower` cover the ASCII
   repertoire that the tool actually manipulates.
 * `sorted(list(set(xs)))` is modelled by `sortedDedup`, which returns the
   strictly increasing enumeration of the elements of `xs`; this is the
   value Python produces no matter how the intermediate `set` is ordered.
 * Python `dict` values (insertion ordered, assignment overwrites) are
   modelled as association lists with `mapInsert` / `lookupMap`.
-/

/-- Python-style split of a character list on a separator character,
mirroring `str.split(sep)`: `"".split(',') == [""]`, `",".split(',') ==
["", ""]`. -/
def splitOnChar (sep : Char) : List Char → List (List Char)
  | [] => [[]]
  | c :: cs =>
    match splitOnChar sep cs with
    | [] => [[c]]
    | h :: t => if c = sep then [] :: h :: t else (c :: h) :: t

/-- Inverse of `splitOnChar`: join chunks with a separator character,
mirroring `sep.join(chunks)`. -/
def joinChar (sep : Char) : List (List Char) → List Char
  | [] => []
  | [c] => c
  | c :: c' :: cs => c ++ sep :: joinChar sep (c' :: cs)

/-- `str.strip()` on the ASCII whitespace repertoire. -/
def trimL (l : List Char) : List Char :=
  ((l.dropWhile Char.isWhitespace).reverse.dropWhile Char.isWhitespace).reverse

/-- `str.isdigit()` for ASCII strings: nonempty and all decimal digits. -/
def isDigitsL (l : List Char) : Bool := !l.isEmpty && l.all Char.isDigit

/-- Numeric value of a decimal digit string (the value `int(s)` returns on
a string of ASCII digits). -/
def digitsVal (l : List Char) : Nat := l.foldl (fun a c => a * 10 + (c.toNat - 48)) 0

/-- `int(s)` restricted to the all-digit tokens the two tools feed it;
`none` models the `ValueError` that `int` raises otherwise. -/
def digitsToNat? (l : List Char) : Option Nat :=
  if isDigitsL l then some (digitsVal l) else none

/-- Insert into a strictly increasing list, dropping duplicates. -/
def insertUnique (n : Nat) : List Nat → List Nat
  | [] => [n]
  | m :: ms => if n < m then n :: m :: ms else if n = m then m :: ms else m :: insertUnique n ms

/-- Model of Python's `sorted(list(set(xs)))`: the strictly increasing
enumeration of the elements of `xs`. -/
def sortedDedup (l : List Nat) : List Nat := l.foldr insertUnique []

/-- Stable insertion into a weakly increasing list (duplicates kept). -/
def insertLe (n : Nat) : List Nat → List Nat
  | [] => [n]
  | m :: ms => if n ≤ m then n :: m :: ms else m :: insertLe n ms

/-- Model of Python's `sorted(xs)` on integer lists (duplicates kept). -/
def pySorted (l : List Nat) : List Nat := l.foldr insertLe []

/-- The distinct `raise` sites of the pure core of `net.py`, one
constructor per message. -/
inductive NetErr where
  | invalidRangeFormat (tok : String)   -- 无效范围格式 (net.py:145)
  | startGtEnd (tok : String)           -- 起始>结束 (net.py:148)
  | invalidNumber (tok : String)        -- 无效数字 (net.py:152)
  | invalidMask (mask : String)         -- 无效掩码格式 (net.py:163)
  | cpuOutOfMask (cpu : Nat)            --  CPU 超出掩码范围 (net.py:172)
  | emptyCpuSet                         -- CPU范围不能为空 (net.py:230)
  | invalidMapFormat                    -- 无效映射格式 (net.py:255)
  | duplicateQueue (q : Nat)            -- 队列 … 重复配置 (net.py:262/271)
  | emptyMap                            -- 未配置任何队列-CPU映射 (net.py:275)
  | nicMissing                          -- 网卡 … 不存在 (net.py:344)
  | queueDirFail                        -- 无法访问队列目录 (net.py:194)
  | queueOutOfRange (q : Nat)           -- 队列 … 超出范围 (net.py:355)
  deriving DecidableEq, Repr

/-- One token of `parse_range` (net.py:141-153).  A token containing `-`
must fully match `^(\d+)-(\d+)$` (equivalently: split on `-` into exactly
two nonempty digit strings, since `\d+` cannot contain `-`), with start ≤
end; otherwise the token must be all digits. -/
def parseRangeToken (part : List Char) : Except NetErr (List Nat) :=
  if part.contains '-' then
    match splitOnChar '-' part with
    | [a, b] =>
      match digitsToNat? a, digitsToNat? b with
      | some s, some e =>
        if s > e then .error (.startGtEnd (String.mk part))
        else .ok (List.range' s (e - s + 1))
      | _, _ => .error (.invalidRangeFormat (String.mk part))
    | _ => .error (.invalidRangeFormat (String.mk part))
  else
    match digitsToNat? part with
    | some n => .ok [n]
    | none => .error (.invalidNumber (String.mk part))

/-- The accumulation loop of `parse_range`: tokens are expanded left to
right; the first bad token raises. -/
def parseRangeTokens : List (List Char) → Except NetErr (List Nat)
  | [] => .ok []
  | p :: ps => do
    let ns ← parseRangeToken p
    let rest ← parseRangeTokens ps
    return ns ++ rest

/-- The token list of `parse_range` (net.py:140): split on commas, strip
each part, and keep only nonempty parts. -/
def pyParts (s : List Char) : List (List Char) :=
  ((splitOnChar ',' s).map trimL).filter (fun p => !p.isEmpty)

/-- `NicQueueConfig.parse_range` (net.py:138-155) on a character list. -/
def parse_rangeL (s : List Char) : Except NetErr (List Nat) :=
  (parseRangeTokens (pyParts s)).map sortedDedup

/-- `NicQueueConfig.parse_range` (net.py:138-155). -/
def parse_range (s : String) : Except NetErr (List Nat) := parse_rangeL s.data

section SortedDedupLemmas

theorem mem_insertUnique {n x : Nat} : ∀ {l : List Nat}, x ∈ insertUnique n l ↔ x = n ∨ x ∈ l
  | [] => by simp [insertUnique]
  | m :: ms => by
    simp only [insertUnique]
    split
    · simp [List.mem_cons]
    · split
      · rename_i h1 h2
        subst h2
        simp only [List.mem_cons]
        tauto
      · simp only [List.mem_cons, mem_insertUnique (l := ms)]
        tauto

theorem sorted_insertUnique {n : Nat} : ∀ {l : List Nat},
    l.Sorted (· < ·) → (insertUnique n l).Sorted (· < ·)
  | [], _ => by simp [insertUnique]
  | m :: ms, h => by
    rw [List.sorted_cons] at h
    simp only [insertUnique]
    split
    · rename_i hlt
      rw [List.sorted_cons]
      refine ⟨?_, by rw [List.sorted_cons]; exact h⟩
      intro b hb
      rcases List.mem_cons.mp hb with rfl | hb
      · exact hlt
      · exact hlt.trans (h.1 b hb)
    · split
      · rw [List.sorted_cons]; exact h
      · rename_i hnm hne
        rw [List.sorted_cons]
        refine ⟨?_, sorted_insertUnique h.2⟩
        intro b hb
        rcases mem_insertUnique.mp hb with rfl | hb
        · omega
        · exact h.1 b hb

theorem mem_sortedDedup {x : Nat} : ∀ {l : List Nat}, x ∈ sortedDedup l ↔ x ∈ l
  | [] => by simp [sortedDedup]
  | a :: l => by
    simp only [sortedDedup, List.foldr_cons, List.mem_cons, mem_insertUnique]
    rw [show List.foldr insertUnique [] l = sortedDedup l from rfl,
      mem_sortedDedup (l := l)]

theorem sorted_sortedDedup : ∀ (l : List Nat), (sortedDedup l).Sorted (· < ·)
  | [] => by simp [sortedDedup]
  | a :: l => sorted_insertUnique (sorted_sortedDedup l)

/-- Two strictly increasing lists with the same members are equal. -/
theorem sorted_lt_ext : ∀ (l₁ l₂ : List Nat), l₁.Sorted (· < ·) → l₂.Sorted (· < ·) →
    (∀ x, x ∈ l₁ ↔ x ∈ l₂) → l₁ = l₂
  | [], [], _, _, _ => rfl
  | [], b :: l₂, _, _, hm => absurd ((hm b).mpr (List.mem_cons_self b l₂)) (List.not_mem_nil b)
  | a :: l₁, [], _, _, hm => absurd ((hm a).mp (List.mem_cons_self a l₁)) (List.not_mem_nil a)
  | a :: l₁, b :: l₂, h₁, h₂, hm => by
    rw [List.sorted_cons] at h₁ h₂
    have hab : a = b := by
      rcases List.mem_cons.mp ((hm a).mp (List.mem_cons_self a l₁)) with h | h
      · exact h
      · rcases List.mem_cons.mp ((hm b).mpr (List.mem_cons_self b l₂)) with h' | h'
        · exact h'.symm
        · have := h₂.1 a h
          have := h₁.1 b h'
          omega
    subst hab
    have htails : ∀ x, x ∈ l₁ ↔ x ∈ l₂ := by
      intro x
      constructor
      · intro hx
        have hax := h₁.1 x hx
        rcases List.mem_cons.mp ((hm x).mp (List.mem_cons_of_mem a hx)) with rfl | h
        · omega
        · exact h
      · intro hx
        have hax := h₂.1 x hx
        rcases List.mem_cons.mp ((hm x).mpr (List.mem_cons_of_mem a hx)) with rfl | h
        · omega
        · exact h
    rw [sorted_lt_ext l₁ l₂ h₁.2 h₂.2 htails]

end SortedDedupLemmas

section PySortedLemmas

theorem mem_insertLe {n x : Nat} : ∀ {l : List Nat}, x ∈ insertLe n l ↔ x = n ∨ x ∈ l
  | [] => by simp [insertLe]
  | m :: ms => by
    simp only [insertLe]
    split
    · simp [List.mem_cons]
    · simp only [List.mem_cons, mem_insertLe (l := ms)]
      tauto

/-- Inserting into a weakly sorted list whose head dominates the new
element is just consing; hence `pySorted` is the identity on already
sorted lists. -/
theorem insertLe_of_le {n : Nat} : ∀ {l : List Nat}, (∀ b ∈ l, n ≤ b) → insertLe n l = n :: l
  | [], _ => rfl
  | m :: ms, h => by
    simp only [insertLe, if_pos (h m (List.mem_cons_self m ms))]

theorem pySorted_eq_of_sorted : ∀ {l : List Nat}, l.Sorted (· ≤ ·) → pySorted l = l
  | [], _ => rfl
  | a :: l, h => by
    rw [List.sorted_cons] at h
    have : pySorted (a :: l) = insertLe a (pySorted l) := rfl
    rw [this, pySorted_eq_of_sorted h.2, insertLe_of_le h.1]

end PySortedLemmas

/-- Claim C3, counterexample to the blank-token clause: the entry `" "` of
`"0, ,1"` is a real comma-delimited entry that is blank after trimming,
yet `parse_range` skips it and succeeds instead of raising a FormatError
(net.py:140 filters out every blank part). -/
theorem c3_counterexample : parse_range "0, ,1" = .ok [0, 1] := by rfl

/-- Claim C3 (amended): for every valid spec the result is the sorted
ascending, duplicate-free set of all listed integers regardless of input
order (`parse("0-3,5") = {0,1,2,3,5}`); a non-numeric or malformed `A-B`
token is a FormatError; `A > B` fails; and every token that is blank after
trimming is silently skipped, whether it comes from a trailing separator
or from a real comma-delimited entry left empty. -/
theorem c3_theorem :
    (∀ s l, parse_range s = .ok l → l.Sorted (· < ·)) ∧
    (∀ s r, parseRangeTokens (pyParts s.data) = .ok r →
      parse_range s = .ok (sortedDedup r) ∧ ∀ x, x ∈ sortedDedup r ↔ x ∈ r) ∧
    parse_range "0-3,5" = .ok [0, 1, 2, 3, 5] ∧
    parse_range "5-3" = .error (.startGtEnd "5-3") ∧
    parse_range "a-1" = .error (.invalidRangeFormat "a-1") ∧
    parse_range "0, ,1" = .ok [0, 1] ∧
    parse_range "0,1," = .ok [0, 1] := by
  refine ⟨?_, ?_, by rfl, by rfl, by rfl, by rfl, by rfl⟩
  · intro s l h
    unfold parse_range parse_rangeL at h
    cases hr : parseRangeTokens (pyParts s.data) with
    | error e => rw [hr] at h; exact absurd h (by simp [Except.map])
    | ok r =>
      rw [hr] at h
      simp only [Except.map, Except.ok.injEq] at h
      exact h ▸ sorted_sortedDedup r
  · intro s r h
    unfold parse_range parse_rangeL
    rw [h]
    exact ⟨rfl, fun x => mem_sortedDedup⟩

/-- Claim C3 witness: the sortedness and membership clauses evaluated at
the concrete spec `"3,0-2,1"`. -/
theorem c3_witness :
    parse_range "3,0-2,1" = .ok [0, 1, 2, 3] ∧ ([0, 1, 2, 3] : List Nat).Sorted (· < ·) ∧
    (∀ x, x ∈ sortedDedup [3, 0, 1, 2, 1] ↔ x ∈ [3, 0, 1, 2, 1]) := by
  refine ⟨by rfl, c3_theorem.1 "3,0-2,1" [0, 1, 2, 3] (by rfl), ?_⟩
  exact fun x => ((c3_theorem.2.1 "3,0-2,1" [3, 0, 1, 2, 1]) (by rfl)).2 x

/-! ### Queue→CPU mapping (net.py:226-277) -/

/-- `q in d` for the insertion-ordered dict model. -/
def mapContains (m : List (Nat × List Nat)) (q : Nat) : Bool := m.any (fun p => p.1 == q)

/-- `d[q] = v` for the insertion-ordered dict model: overwrite in place if
the key exists, otherwise append. -/
def mapInsert (m : List (Nat × List Nat)) (q : Nat) (v : List Nat) : List (Nat × List Nat) :=
  if mapContains m q then m.map (fun p => if p.1 == q then (q, v) else p) else m ++ [(q, v)]

/-- `d.get(q)` for the dict model. -/
def lookupMap (m : List (Nat × List Nat)) (q : Nat) : Option (List Nat) :=
  (m.find? (fun p => p.1 == q)).map (fun p => p.2)

/-- `NicQueueConfig.assign_cpus_to_queues` (net.py:226-237): round-robin
distribution, `queues[i] -> [all_cpus[i % len(all_cpus)]]`; an empty CPU
list raises. -/
def assign_cpus_to_queues (queues allCpus : List Nat) : Except NetErr (List (Nat × List Nat)) :=
  if allCpus.length = 0 then .error .emptyCpuSet
  else .ok (queues.enum.foldl
    (fun m p => mapInsert m p.2 [allCpus.getD (p.1 % allCpus.length) 0]) [])

/-- One regex match of the clause pattern
`([^:]+?)(:{1,2})([^,]+(?:,[^,]+)*)` (net.py:241): queue part, separator
(`[':']` or `[':', ':']`), CPU part. -/
abbrev Clause := List Char × List Char × List Char

/-- The greedy third group `[^,]+(?:,[^,]+)*` starting at `cs` (which is
nonempty and does not start with a comma): it consumes the maximal prefix
of nonempty comma-separated chunks; the remainder of the string is
returned alongside.  Formulated via `splitOnChar`, whose chunks are
comma-free. -/
def takeGroup3 (cs : List Char) : List Char × List Char :=
  let chunks := splitOnChar ',' cs
  let taken := chunks.takeWhile (fun c => !c.isEmpty)
  let rest := chunks.drop taken.length
  (joinChar ',' taken, if rest.isEmpty then [] else ',' :: joinChar ',' rest)

/-- `re.finditer` of the clause pattern over the mapping string.  The lazy
first group `[^:]+?` makes every match run from the first non-colon
position up to the next colon; the greedy `:{1,2}` takes a double colon
when one is present, falling back to a single colon when the third group
would otherwise be empty; the scan resumes at the end of each match, and a
position whose colon is immediately followed by a comma or the end of the
string yields no match there, so the scan resumes after that colon.  The
fuel argument strictly exceeds the character count, and every recursive
call consumes at least one character. -/
def scanClauses : Nat → List Char → List Clause
  | 0, _ => []
  | _, [] => []
  | fuel + 1, cs =>
    let g1 := cs.takeWhile (fun c => c ≠ ':')
    match cs.dropWhile (fun c => c ≠ ':') with
    | [] => []
    | _ :: rest1 =>
      if g1.isEmpty then scanClauses fuel rest1
      else
        match rest1 with
        | ':' :: rest2 =>
          if rest2.head? ≠ none ∧ rest2.head? ≠ some ',' then
            let p := takeGroup3 rest2
            (g1, [':', ':'], p.1) :: scanClauses fuel p.2
          else
            let p := takeGroup3 rest1
            (g1, [':'], p.1) :: scanClauses fuel p.2
        | _ =>
          match rest1.head? with
          | none => []
          | some c =>
            if c ≠ ',' then
              let p := takeGroup3 rest1
              (g1, [':'], p.1) :: scanClauses fuel p.2
            else
              scanClauses fuel rest1

/-- The body of the `for match in matches` loop of `parse_queue_cpu_map`
(net.py:250-272), threading the accumulated dict. -/
def processClause (m : List (Nat × List Nat)) (cl : Clause) :
    Except NetErr (List (Nat × List Nat)) :=
  let qpart := trimL cl.1
  let cpart := trimL cl.2.2
  if qpart.isEmpty || cpart.isEmpty then .error .invalidMapFormat
  else do
    let queues ← parse_rangeL qpart
    let allCpus ← parse_rangeL cpart
    if cl.2.1 = [':', ':'] then
      queues.foldlM (fun acc q =>
        if mapContains acc q then .error (.duplicateQueue q)
        else .ok (mapInsert acc q allCpus)) m
    else
      match queues with
      | [q] => .ok (mapInsert m q allCpus)
      | _ => do
        let sub ← assign_cpus_to_queues queues allCpus
        sub.foldlM (fun acc p =>
          if mapContains acc p.1 then .error (.duplicateQueue p.1)
          else .ok (mapInsert acc p.1 p.2)) m

/-- `NicQueueConfig.parse_queue_cpu_map` (net.py:239-277).  The
`if not matches` test of net.py:244 is dead code — `re.finditer` returns
an (always truthy) iterator — so it has no counterpart here; an input with
no matches falls through to the final emptiness check. -/
def parse_queue_cpu_map (s : String) : Except NetErr (List (Nat × List Nat)) := do
  let m ← (scanClauses (s.data.length + 1) s.data).foldlM processClause []
  if m.isEmpty then .error .emptyMap else .ok m


section MapLemmas

theorem mapContains_cons {p : Nat × List Nat} {m : List (Nat × List Nat)} {q : Nat} :
    mapContains (p :: m) q = true ↔ p.1 = q ∨ mapContains m q = true := by
  simp [mapContains]

theorem lookupMap_cons {p : Nat × List Nat} {m : List (Nat × List Nat)} {q : Nat} :
    lookupMap (p :: m) q = if p.1 = q then some p.2 else lookupMap m q := by
  by_cases h : p.1 = q
  · simp only [if_pos h, lookupMap]
    rw [List.find?_cons_of_pos _ (by simpa using h)]
    rfl
  · simp only [if_neg h, lookupMap]
    rw [List.find?_cons_of_neg _ (by simpa using h)]

/-- The in-place overwrite of `mapInsert` leaves the key sequence
untouched, so membership testing is unchanged. -/
theorem mapContains_overwriteMap {m : List (Nat × List Nat)} {q q' : Nat} {v : List Nat} :
    mapContains (m.map (fun p => if p.1 == q then (q, v) else p)) q' = mapContains m q' := by
  unfold mapContains
  rw [List.any_map]
  have : ((fun p => p.1 == q') ∘ fun p : Nat × List Nat => if p.1 == q then (q, v) else p) =
      (fun p : Nat × List Nat => p.1 == q') := by
    funext p
    by_cases hp : p.1 = q
    · simp [hp]
    · simp [hp]
  rw [this]

theorem mapContains_insert {m : List (Nat × List Nat)} {q q' : Nat} {v : List Nat} :
    mapContains (mapInsert m q v) q' = true ↔ q' = q ∨ mapContains m q' = true := by
  unfold mapInsert
  by_cases hc : mapContains m q
  · rw [if_pos hc, mapContains_overwriteMap]
    constructor
    · exact Or.inr
    · rintro (rfl | h)
      · exact hc
      · exact h
  · rw [if_neg hc]
    unfold mapContains
    rw [List.any_append]
    simp only [List.any_cons, List.any_nil, Bool.or_false, Bool.or_eq_true, beq_iff_eq]
    constructor
    · rintro (h | h)
      · exact Or.inr h
      · exact Or.inl h.symm
    · rintro (rfl | h)
      · exact Or.inr rfl
      · exact Or.inl h

theorem lookupMap_insert_self {m : List (Nat × List Nat)} {q : Nat} {v : List Nat} :
    lookupMap (mapInsert m q v) q = some v := by
  unfold mapInsert
  by_cases hc : mapContains m q
  · rw [if_pos hc]
    revert hc
    induction m with
    | nil => intro hc; simp [mapContains] at hc
    | cons p m ih =>
      intro hc
      by_cases hp : p.1 = q
      · simp only [List.map_cons, if_pos (show (p.1 == q) = true by simpa using hp)]
        rw [lookupMap_cons]
        simp
      · simp only [List.map_cons, if_neg (show ¬(p.1 == q) = true by simpa using hp)]
        rw [lookupMap_cons, if_neg hp]
        have hm : mapContains m q = true := by
          rcases mapContains_cons.mp hc with h | h
          · exact absurd h hp
          · exact h
        exact ih hm
  · rw [if_neg hc]
    induction m with
    | nil => rw [List.nil_append, lookupMap_cons]; simp
    | cons p m ih =>
      have hp : p.1 ≠ q := fun h => hc (mapContains_cons.mpr (Or.inl h))
      rw [List.cons_append, lookupMap_cons, if_neg hp]
      exact ih (fun h => hc (mapContains_cons.mpr (Or.inr h)))

theorem lookupMap_insert_ne {m : List (Nat × List Nat)} {q q' : Nat} {v : List Nat}
    (h : q' ≠ q) : lookupMap (mapInsert m q v) q' = lookupMap m q' := by
  unfold mapInsert
  by_cases hc : mapContains m q
  · rw [if_pos hc]
    clear hc
    induction m with
    | nil => rfl
    | cons p m ih =>
      by_cases hp : p.1 = q
      · simp only [List.map_cons, if_pos (show (p.1 == q) = true by simpa using hp)]
        rw [lookupMap_cons, lookupMap_cons, if_neg (Ne.symm h), if_neg (hp ▸ Ne.symm h)]
        exact ih
      · simp only [List.map_cons, if_neg (show ¬(p.1 == q) = true by simpa using hp)]
        rw [lookupMap_cons, lookupMap_cons]
        exact if_congr Iff.rfl rfl ih
  · rw [if_neg hc]
    induction m with
    | nil => rw [List.nil_append, lookupMap_cons, if_neg (Ne.symm h)]
    | cons p m ih =>
      rw [List.cons_append, lookupMap_cons, lookupMap_cons]
      exact if_congr Iff.rfl rfl (ih (fun hx => hc (mapContains_cons.mpr (Or.inr hx))))

end MapLemmas

/-- Helper: `parse_range` output is strictly increasing. -/
theorem parse_rangeL_ok_sorted {s : List Char} {l : List Nat}
    (h : parse_rangeL s = .ok l) : l.Sorted (· < ·) := by
  unfold parse_rangeL at h
  cases hr : parseRangeTokens (pyParts s) with
  | error e => rw [hr] at h; exact absurd h (by simp [Except.map])
  | ok r =>
    rw [hr] at h
    simp only [Except.map, Except.ok.injEq] at h
    exact h ▸ sorted_sortedDedup r

section FoldLemmas

/-- The broadcast loop of a `::` clause (net.py:260-263) succeeds on a
duplicate-free queue list whose members are all absent from the
accumulated map, assigning every queue the full CPU list. -/
theorem broadcastFold_ok (cpus : List Nat) : ∀ (qs : List Nat) (m : List (Nat × List Nat)),
    qs.Nodup → (∀ q ∈ qs, mapContains m q = false) →
    ∃ m', qs.foldlM (fun acc q =>
        if mapContains acc q then Except.error (NetErr.duplicateQueue q)
        else Except.ok (mapInsert acc q cpus)) m = .ok m' ∧
      (∀ q ∈ qs, lookupMap m' q = some cpus) ∧
      (∀ q, q ∉ qs → lookupMap m' q = lookupMap m q)
  | [], m, _, _ => ⟨m, rfl, by simp, fun _ _ => rfl⟩
  | q₀ :: qs, m, hnd, habs => by
    have hc : mapContains m q₀ = false := habs q₀ (List.mem_cons_self q₀ qs)
    have hnd' := List.nodup_cons.mp hnd
    have habs' : ∀ q ∈ qs, mapContains (mapInsert m q₀ cpus) q = false := by
      intro q hq
      have hne : q ≠ q₀ := fun h => hnd'.1 (h ▸ hq)
      cases hmc : mapContains (mapInsert m q₀ cpus) q with
      | false => rfl
      | true =>
        rcases mapContains_insert.mp hmc with h | h
        · exact absurd h hne
        · rw [habs q (List.mem_cons_of_mem q₀ hq)] at h; cases h
    obtain ⟨m', hfold, hmem, hframe⟩ := broadcastFold_ok cpus qs (mapInsert m q₀ cpus) hnd'.2 habs'
    refine ⟨m', ?_, ?_, ?_⟩
    · rw [List.foldlM_cons, if_neg (by rw [hc]; exact Bool.false_ne_true)]
      exact hfold
    · intro q hq
      rcases List.mem_cons.mp hq with rfl | hq
      · rw [hframe q hnd'.1]
        exact lookupMap_insert_self
      · exact hmem q hq
    · intro q hq
      rw [hframe q (fun h => hq (List.mem_cons_of_mem q₀ h)),
        lookupMap_insert_ne (fun h => hq (by rw [h]; exact List.mem_cons_self q₀ qs))]

/-- The broadcast loop of a `::` clause raises `DuplicateError` whenever
some queue of the clause is already present in the accumulated map. -/
theorem broadcastFold_dup (cpus : List Nat) : ∀ (qs : List Nat) (m : List (Nat × List Nat))
    (q : Nat), q ∈ qs → mapContains m q = true →
    ∃ q', qs.foldlM (fun acc q =>
        if mapContains acc q then Except.error (NetErr.duplicateQueue q)
        else Except.ok (mapInsert acc q cpus)) m = .error (.duplicateQueue q')
  | [], _, q, hq, _ => absurd hq (List.not_mem_nil q)
  | q₀ :: qs, m, q, hq, hc => by
    by_cases hc₀ : mapContains m q₀ = true
    · exact ⟨q₀, by rw [List.foldlM_cons, if_pos hc₀]; rfl⟩
    · have hne : q ≠ q₀ := fun h => hc₀ (h ▸ hc)
      have hq' : q ∈ qs := by
        rcases List.mem_cons.mp hq with h | h
        · exact absurd h hne
        · exact h
      obtain ⟨q', h⟩ := broadcastFold_dup cpus qs (mapInsert m q₀ cpus) q hq'
        (mapContains_insert.mpr (Or.inr hc))
      exact ⟨q', by rw [List.foldlM_cons, if_neg hc₀]; exact h⟩

/-- The duplicate-checked insertion loop over the sub-map of a multi-queue
`:` clause (net.py:269-272) raises `DuplicateError` whenever a key of the
sub-map is already present in the accumulated map. -/
theorem pairFold_dup : ∀ (entries : List (Nat × List Nat)) (m : List (Nat × List Nat))
    (q : Nat), (∃ p ∈ entries, p.1 = q) → mapContains m q = true →
    ∃ q', entries.foldlM (fun acc p =>
        if mapContains acc p.1 then Except.error (NetErr.duplicateQueue p.1)
        else Except.ok (mapInsert acc p.1 p.2)) m = .error (.duplicateQueue q')
  | [], _, q, hq, _ => by simp at hq
  | p₀ :: entries, m, q, hq, hc => by
    by_cases hc₀ : mapContains m p₀.1 = true
    · exact ⟨p₀.1, by rw [List.foldlM_cons, if_pos hc₀]; rfl⟩
    · have hne : p₀.1 ≠ q := fun h => hc₀ (h ▸ hc)
      have hq' : ∃ p ∈ entries, p.1 = q := by
        rcases hq with ⟨p, hp, hpq⟩
        rcases List.mem_cons.mp hp with rfl | hp
        · exact absurd hpq hne
        · exact ⟨p, hp, hpq⟩
      obtain ⟨q', h⟩ := pairFold_dup entries (mapInsert m p₀.1 p₀.2) q hq'
        (mapContains_insert.mpr (Or.inr hc))
      exact ⟨q', by rw [List.foldlM_cons, if_neg hc₀]; exact h⟩

/-- Every queue handed to `assign_cpus_to_queues` appears as a key of the
accumulated result. -/
theorem assignFold_contains {cpus : List Nat} {q : Nat} : ∀ (l : List (Nat × Nat))
    (acc : List (Nat × List Nat)), ((∃ p ∈ l, p.2 = q) ∨ mapContains acc q = true) →
    mapContains (l.foldl
      (fun m p => mapInsert m p.2 [cpus.getD (p.1 % cpus.length) 0]) acc) q = true
  | [], acc, h => by
    rcases h with h | h
    · simp at h
    · exact h
  | p₀ :: l, acc, h => by
    rw [List.foldl_cons]
    apply assignFold_contains l
    rcases h with ⟨p, hp, hpq⟩ | h
    · rcases List.mem_cons.mp hp with rfl | hp
      · right
        have : mapContains (mapInsert acc p.2 [cpus.getD (p.1 % cpus.length) 0]) q = true :=
          mapContains_insert.mpr (Or.inl hpq.symm)
        exact this
      · exact Or.inl ⟨p, hp, hpq⟩
    · exact Or.inr (mapContains_insert.mpr (Or.inr h))

theorem exists_enumFrom_of_mem {q : Nat} : ∀ {l : List Nat} (k : Nat), q ∈ l →
    ∃ p ∈ List.enumFrom k l, p.2 = q
  | [], _, hq => absurd hq (List.not_mem_nil q)
  | a :: l, k, hq => by
    rcases List.mem_cons.mp hq with rfl | hq
    · exact ⟨(k, q), List.mem_cons_self _ _, rfl⟩
    · obtain ⟨p, hp, hpq⟩ := exists_enumFrom_of_mem (k + 1) hq
      exact ⟨p, List.mem_cons_of_mem _ hp, hpq⟩

end FoldLemmas

theorem bindOk {ε α β : Type} (a : α) (f : α → Except ε β) :
    (Except.ok a >>= f) = f a := rfl

theorem bindErr {ε α β : Type} (e : ε) (f : α → Except ε β) :
    ((Except.error e : Except ε α) >>= f) = .error e := rfl

/-- Helper: an empty queue- or CPU-part parses to the empty list, so a
nonempty parse result forces a nonempty part. -/
theorem trim_nonempty_of_parse {g : List Char} {l : List Nat}
    (h : parse_rangeL (trimL g) = .ok l) (hl : l ≠ []) : (trimL g).isEmpty = false := by
  cases hge : (trimL g).isEmpty
  · rfl
  · exfalso
    have hnil : trimL g = [] := by simpa using hge
    rw [hnil] at h
    have h0 : parse_rangeL ([] : List Char) = .ok ([] : List Nat) := rfl
    rw [h0] at h
    exact hl (by simpa using h.symm)

/-- Claim C1, counterexample: parsing `"0-1:5,1:6"` does not raise
DuplicateError.  The greedy CPU group of the clause regex consumes
`"5,1:6"` whole, so the string is a single clause whose CPU spec fails
numeric parsing (无效数字 on token `"1:6"`); the duplicate check is never
reached. -/
theorem c1_counterexample :
    parse_queue_cpu_map "0-1:5,1:6" = .error (.invalidNumber "1:6") := by rfl

/-- Claim C1 (amended): a queue assigned more than once raises
DuplicateError when the later clause is a broadcast (`::`) clause or a
multi-queue `:` clause, but a single-queue `:` clause silently overwrites
any earlier assignment, and `"0-1:5,1:6"` is consumed as one clause whose
CPU spec `"5,1:6"` fails numeric parsing, so it raises a format error
rather than DuplicateError. -/
theorem c1_theorem :
    (∀ (m : List (Nat × List Nat)) (g1 g3 : List Char) (queues cpus : List Nat) (q : Nat),
       parse_rangeL (trimL g1) = .ok queues →
       parse_rangeL (trimL g3) = .ok cpus →
       (trimL g3).isEmpty = false →
       q ∈ queues → mapContains m q = true →
       ∃ q', processClause m (g1, [':', ':'], g3) = .error (.duplicateQueue q')) ∧
    (∀ (m : List (Nat × List Nat)) (g1 g3 : List Char) (queues cpus : List Nat) (q : Nat),
       parse_rangeL (trimL g1) = .ok queues →
       parse_rangeL (trimL g3) = .ok cpus →
       (trimL g3).isEmpty = false →
       2 ≤ queues.length → cpus ≠ [] →
       q ∈ queues → mapContains m q = true →
       ∃ q', processClause m (g1, [':'], g3) = .error (.duplicateQueue q')) ∧
    parse_queue_cpu_map "0-1:5,1:6" = .error (.invalidNumber "1:6") ∧
    parse_queue_cpu_map "0:1,,0:2" = .ok [(0, [2])] := by
  refine ⟨?_, ?_, by rfl, by rfl⟩
  · intro m g1 g3 queues cpus q hq hc hg3 hmem hdup
    have hq1 : (trimL g1).isEmpty = false :=
      trim_nonempty_of_parse hq (fun h => (h ▸ List.not_mem_nil q) hmem)
    obtain ⟨q', hfold⟩ := broadcastFold_dup cpus queues m q hmem hdup
    refine ⟨q', ?_⟩
    unfold processClause
    rw [if_neg (by simp [hq1, hg3])]
    simp only [hq, bindOk, hc]
    rw [if_pos trivial]
    exact hfold
  · intro m g1 g3 queues cpus q hq hc hg3 hlen hcne hmem hdup
    have hq1 : (trimL g1).isEmpty = false :=
      trim_nonempty_of_parse hq (fun h => (h ▸ List.not_mem_nil q) hmem)
    obtain ⟨a, b, rest, rfl⟩ : ∃ a b rest, queues = a :: b :: rest := by
      match queues, hlen with
      | a :: b :: rest, _ => exact ⟨a, b, rest, rfl⟩
    have hclen : cpus.length ≠ 0 := fun h => hcne (List.length_eq_zero.mp h)
    have hassign : assign_cpus_to_queues (a :: b :: rest) cpus =
        .ok ((a :: b :: rest).enum.foldl
          (fun m p => mapInsert m p.2 [cpus.getD (p.1 % cpus.length) 0]) []) := by
      unfold assign_cpus_to_queues
      rw [if_neg hclen]
    have hsubc : mapContains ((a :: b :: rest).enum.foldl
        (fun m p => mapInsert m p.2 [cpus.getD (p.1 % cpus.length) 0]) []) q = true :=
      assignFold_contains _ _ (Or.inl (exists_enumFrom_of_mem 0 hmem))
    have hsubex : ∃ p ∈ (a :: b :: rest).enum.foldl
        (fun m p => mapInsert m p.2 [cpus.getD (p.1 % cpus.length) 0]) [], p.1 = q := by
      rcases List.any_eq_true.mp hsubc with ⟨p, hp, hpq⟩
      exact ⟨p, hp, by simpa using hpq⟩
    obtain ⟨q', hfold⟩ := pairFold_dup _ m q hsubex hdup
    refine ⟨q', ?_⟩
    unfold processClause
    rw [if_neg (by simp [hq1, hg3])]
    simp only [hq, bindOk, hc]
    rw [if_neg (by simp)]
    show (do
      let sub ← assign_cpus_to_queues (a :: b :: rest) cpus
      sub.foldlM (fun acc p =>
        if mapContains acc p.1 then Except.error (NetErr.duplicateQueue p.1)
        else Except.ok (mapInsert acc p.1 p.2)) m) = Except.error (NetErr.duplicateQueue q')
    rw [hassign, bindOk]
    exact hfold

/-- Claim C1 witness: the broadcast clause `"1::7"` processed against a
map that already assigns queue 1, and the distribute clause `"0-1:7"`
processed against a map that already assigns queue 1, both raise
DuplicateError; the concrete evaluations of the conjunction hold. -/
theorem c1_witness :
    (∃ q', processClause [(1, [5])] (['1'], [':', ':'], ['7']) =
      .error (.duplicateQueue q')) ∧
    (∃ q', processClause [(1, [5])] (['0', '-', '1'], [':'], ['7']) =
      .error (.duplicateQueue q')) :=
  ⟨c1_theorem.1 [(1, [5])] ['1'] ['7'] [1] [7] 1 (by rfl) (by rfl) (by rfl)
      (by decide) (by rfl),
    c1_theorem.2.1 [(1, [5])] ['0', '-', '1'] ['7'] [0, 1] [7] 1 (by rfl) (by rfl) (by rfl)
      (by decide) (by decide) (by decide) (by rfl)⟩

/-- Claim C2: broadcast semantics.  For a `::` clause, every queue of the
queue spec is mapped to the entire parsed CPU set, unmodified, regardless
of the relative cardinalities; in particular `"0-62::0-55,112-167"` maps
each of queues 0..62 to `{0..55} ∪ {112..167}`. -/
theorem c2_theorem :
    (∀ (m : List (Nat × List Nat)) (g1 g3 : List Char) (queues cpus : List Nat),
       parse_rangeL (trimL g1) = .ok queues →
       parse_rangeL (trimL g3) = .ok cpus →
       (trimL g3).isEmpty = false →
       queues ≠ [] →
       (∀ q ∈ queues, mapContains m q = false) →
       ∃ m', processClause m (g1, [':', ':'], g3) = .ok m' ∧
         ∀ q ∈ queues, lookupMap m' q = some cpus) ∧
    parse_queue_cpu_map "0-62::0-55,112-167" =
      .ok ((List.range 63).map (fun q => (q, List.range' 0 56 ++ List.range' 112 56))) := by
  constructor
  · intro m g1 g3 queues cpus hq hc hg3 hqs habs
    have hq1 : (trimL g1).isEmpty = false := trim_nonempty_of_parse hq hqs
    have hnd : queues.Nodup := (parse_rangeL_ok_sorted hq).nodup
    obtain ⟨m', hfold, hmem, _⟩ := broadcastFold_ok cpus queues m hnd habs
    refine ⟨m', ?_, hmem⟩
    unfold processClause
    rw [if_neg (by simp [hq1, hg3])]
    simp only [hq, bindOk, hc]
    rw [if_pos trivial]
    exact hfold
  · set_option maxRecDepth 80000 in rfl

/-- Claim C2 witness: the broadcast clause `"0-2::5,9"` processed against
the empty map assigns each of queues 0, 1, 2 the full CPU set `{5, 9}`. -/
theorem c2_witness :
    ∃ m', processClause [] (['0', '-', '2'], [':', ':'], ['5', ',', '9']) = .ok m' ∧
      ∀ q ∈ [0, 1, 2], lookupMap m' q = some [5, 9] :=
  c2_theorem.1 [] ['0', '-', '2'] ['5', ',', '9'] [0, 1, 2] [5, 9]
    (by rfl) (by rfl) (by rfl) (by decide) (by decide)

/-! ### Bitmask codec (net.py:160-188) -/

/-- `[0-9a-fA-F]` character class. -/
def isHexDigitL (c : Char) : Bool :=
  c.isDigit || ('a' ≤ c && c ≤ 'f') || ('A' ≤ c && c ≤ 'F')

/-- The anchored body `([0-9a-fA-F]{8},)*[0-9a-fA-F]{8}`: every
comma-separated chunk is exactly eight hex digits (chunks are comma-free,
so the two readings agree). -/
def maskChunksOk (cs : List Char) : Bool :=
  (splitOnChar ',' cs).all (fun seg => seg.length == 8 && seg.all isHexDigitL)

/-- `re.match(r'^([0-9a-fA-F]{8},)*[0-9a-fA-F]{8}$', s)` (net.py:162).
Python's `$` also matches just before one trailing newline, so a mask with
a final `'\n'` is accepted as well. -/
def maskFormatOk (cs : List Char) : Bool :=
  maskChunksOk cs || (cs.getLast? == some '\n' && maskChunksOk cs.dropLast)

/-- The body of the `for cpu in cpus` loop of `generate_mask`
(net.py:167-173) over a segment-value list of length `n`.  Python computes
`seg_idx = n - 1 - cpu_grp` and raises when `seg_idx < 0` (`seg_idx >= n`
cannot happen since `cpu_grp >= 0`); in `Nat` arithmetic `seg_idx < 0` is
exactly `n ≤ cpu_grp` because `n ≥ 1` for every split. -/
def setCpuBit (n : Nat) (vals : List Nat) (cpu : Nat) : Except NetErr (List Nat) :=
  let grp := cpu / 32
  let bit := cpu % 32
  if n ≤ grp then .error (.cpuOutOfMask cpu)
  else .ok (vals.set (n - 1 - grp) ((vals.getD (n - 1 - grp) 0) ||| (1 <<< bit)))

/-- Lowercase hex digit character for a nibble value. -/
def hexDigitChar (n : Nat) : Char :=
  if n < 10 then Char.ofNat (48 + n) else Char.ofNat (87 + n)

/-- The `k` base-16 digits of `v`, least significant first. -/
def nibbles : Nat → Nat → List Nat
  | 0, _ => []
  | k + 1, v => (v % 16) :: nibbles k (v / 16)

/-- Python's `f"{val:08x}"` for the segment values of `generate_mask`,
which are always below `2^32` (each set bit position is below 32). -/
def hex8 (v : Nat) : List Char := ((nibbles 8 v).map hexDigitChar).reverse

/-- `NicQueueConfig.generate_mask` (net.py:160-177). -/
def generate_mask (cpus : List Nat) (origMask : String) : Except NetErr String :=
  let segs := splitOnChar ',' origMask.data
  if !maskFormatOk origMask.data then .error (.invalidMask origMask)
  else do
    let vals ← cpus.foldlM (setCpuBit segs.length) (List.replicate segs.length 0)
    return String.mk (joinChar ',' (vals.map hex8))

/-- Value of one hex digit character. -/
def hexVal? (c : Char) : Option Nat :=
  if c.isDigit then some (c.toNat - 48)
  else if 'a' ≤ c && c ≤ 'f' then some (c.toNat - 87)
  else if 'A' ≤ c && c ≤ 'F' then some (c.toNat - 55)
  else none

/-- `int(seg, 16)` on the plain hex-digit segments that kernel masks and
`generate_mask` outputs consist of; `none` models the `ValueError` raised
on anything else. -/
def hexListVal? (l : List Char) : Option Nat :=
  if l.isEmpty then none
  else (l.mapM hexVal?).map (fun ds => ds.foldl (fun a d => a * 16 + d) 0)

/-- The inner `for bit in range(32)` loop of `mask_to_cpus`
(net.py:184-186): the CPUs contributed by segment-group `p.1` with value
`p.2` (a bit is set iff `seg_val & (1 << bit)` is nonzero, i.e. iff
`testBit`). -/
def bitCpus (p : Nat × Nat) : List Nat :=
  ((List.range 32).filter (fun bit => p.2.testBit bit)).map (fun bit => p.1 * 32 + bit)

/-- `NicQueueConfig.mask_to_cpus` (net.py:179-188): segments are read
least-significant last (`reversed`), each set bit below 32 contributes
`grp*32 + bit`, and the collected CPUs are sorted. -/
def mask_to_cpus (mask : String) : Option (List Nat) := do
  let vals ← (splitOnChar ',' mask.data).mapM hexListVal?
  return pySorted ((vals.reverse.enum).flatMap bitCpus)

section MaskLemmas

theorem splitOnChar_ne_nil (sep : Char) : ∀ (cs : List Char), splitOnChar sep cs ≠ []
  | [] => by simp [splitOnChar]
  | c :: cs => by
    unfold splitOnChar
    cases h : splitOnChar sep cs with
    | nil => simp
    | cons x t => by_cases hc : c = sep <;> simp [hc]

/-- Unfolding equation for `splitOnChar` on a cons cell. -/
theorem splitOnChar_cons (sep c : Char) (cs : List Char) :
    ∃ x t, splitOnChar sep cs = x :: t ∧
      splitOnChar sep (c :: cs) = if c = sep then [] :: x :: t else (c :: x) :: t := by
  cases h : splitOnChar sep cs with
  | nil => exact absurd h (splitOnChar_ne_nil sep cs)
  | cons x t =>
    refine ⟨x, t, rfl, ?_⟩
    unfold splitOnChar
    rw [h]

theorem splitOnChar_of_not_mem (sep : Char) : ∀ (cs : List Char),
    (∀ c ∈ cs, c ≠ sep) → splitOnChar sep cs = [cs]
  | [], _ => rfl
  | c :: cs, h => by
    obtain ⟨x, t, hxt, hcons⟩ := splitOnChar_cons sep c cs
    rw [splitOnChar_of_not_mem sep cs (fun y hy => h y (List.mem_cons_of_mem c hy))] at hxt
    cases hxt
    rw [hcons, if_neg (h c (List.mem_cons_self c cs))]

theorem splitOnChar_append_sep (sep : Char) : ∀ (a rest : List Char),
    (∀ c ∈ a, c ≠ sep) → splitOnChar sep (a ++ sep :: rest) = a :: splitOnChar sep rest
  | [], rest, _ => by
    rw [List.nil_append]
    obtain ⟨x, t, hxt, hcons⟩ := splitOnChar_cons sep sep rest
    rw [hcons, if_pos rfl, ← hxt]
  | c :: a, rest, h => by
    rw [List.cons_append]
    obtain ⟨x, t, hxt, hcons⟩ := splitOnChar_cons sep c (a ++ sep :: rest)
    rw [splitOnChar_append_sep sep a rest (fun y hy => h y (List.mem_cons_of_mem c hy))] at hxt
    cases hxt
    rw [hcons, if_neg (h c (List.mem_cons_self c a))]

theorem splitOnChar_joinChar (sep : Char) : ∀ (chunks : List (List Char)), chunks ≠ [] →
    (∀ ch ∈ chunks, ∀ c ∈ ch, c ≠ sep) → splitOnChar sep (joinChar sep chunks) = chunks
  | [], h, _ => absurd rfl h
  | [ch], _, hch => by
    unfold joinChar
    exact splitOnChar_of_not_mem sep ch (hch ch (List.mem_cons_self ch []))
  | ch :: ch' :: chunks, _, hch => by
    show splitOnChar sep (ch ++ sep :: joinChar sep (ch' :: chunks)) = _
    rw [splitOnChar_append_sep sep ch _ (hch ch (List.mem_cons_self ch _))]
    rw [splitOnChar_joinChar sep (ch' :: chunks) (by simp)
      (fun x hx => hch x (List.mem_cons_of_mem ch hx))]

theorem nibbles_length : ∀ (k v : Nat), (nibbles k v).length = k
  | 0, _ => rfl
  | k + 1, v => by simp [nibbles, nibbles_length k]

theorem nibbles_lt : ∀ (k v : Nat), ∀ d ∈ nibbles k v, d < 16
  | 0, _, d, hd => absurd hd (List.not_mem_nil d)
  | k + 1, v, d, hd => by
    rcases List.mem_cons.mp hd with rfl | hd
    · exact Nat.mod_lt v (by omega)
    · exact nibbles_lt k (v / 16) d hd

theorem hex8_length (v : Nat) : (hex8 v).length = 8 := by
  simp [hex8, nibbles_length]

theorem hexDigitChar_ne_comma {d : Nat} (h : d < 16) : hexDigitChar d ≠ ',' := by
  interval_cases d <;> decide

theorem isHexDigitL_hexDigitChar {d : Nat} (h : d < 16) : isHexDigitL (hexDigitChar d) = true := by
  interval_cases d <;> decide

theorem hexVal?_hexDigitChar {d : Nat} (h : d < 16) : hexVal? (hexDigitChar d) = some d := by
  interval_cases d <;> decide

theorem hex8_chars {v : Nat} : ∀ c ∈ hex8 v, c ≠ ',' ∧ isHexDigitL c = true := by
  intro c hc
  simp only [hex8, List.mem_reverse, List.mem_map] at hc
  rcases hc with ⟨d, hd, rfl⟩
  have hlt := nibbles_lt 8 v d hd
  exact ⟨hexDigitChar_ne_comma hlt, isHexDigitL_hexDigitChar hlt⟩

theorem mapM_hexVal_map : ∀ (ds : List Nat), (∀ d ∈ ds, d < 16) →
    ((ds.map hexDigitChar).mapM hexVal?) = some ds
  | [], _ => rfl
  | d :: ds, h => by
    rw [List.map_cons, List.mapM_cons]
    rw [hexVal?_hexDigitChar (h d (List.mem_cons_self d ds)),
      mapM_hexVal_map ds (fun x hx => h x (List.mem_cons_of_mem d hx))]
    rfl

theorem foldl_nibbles_reverse : ∀ (k v : Nat),
    ((nibbles k v).reverse).foldl (fun a d => a * 16 + d) 0 = v % 16 ^ k
  | 0, v => by simp [nibbles, Nat.mod_one]
  | k + 1, v => by
    show (((v % 16) :: nibbles k (v / 16)).reverse).foldl (fun a d => a * 16 + d) 0 = _
    rw [List.reverse_cons, List.foldl_append, foldl_nibbles_reverse k (v / 16)]
    simp only [List.foldl_cons, List.foldl_nil]
    have h16 : (16 : Nat) ^ (k + 1) = 16 * 16 ^ k := by ring
    rw [h16, Nat.mod_mul]
    ring

theorem hexListVal?_hex8 {v : Nat} (h : v < 2 ^ 32) : hexListVal? (hex8 v) = some v := by
  unfold hexListVal?
  rw [if_neg (by simp [List.isEmpty_iff, ← List.length_eq_zero, hex8_length])]
  have hrw : hex8 v = ((nibbles 8 v).reverse).map hexDigitChar := by
    rw [hex8, List.map_reverse]
  rw [hrw, mapM_hexVal_map _ (fun d hd => nibbles_lt 8 v d (List.mem_reverse.mp hd))]
  simp only [Option.map_some']
  rw [foldl_nibbles_reverse]
  congr 1
  have : (16 : Nat) ^ 8 = 2 ^ 32 := by norm_num
  rw [this]
  exact Nat.mod_eq_of_lt h

end MaskLemmas

section SetCpuBitLemmas

theorem getD_set_self {l : List Nat} {i a : Nat} (h : i < l.length) :
    (l.set i a).getD i 0 = a := by
  rw [List.getD_eq_getElem?_getD, List.getElem?_set_self h]
  rfl

theorem getD_set_ne {l : List Nat} {i j a : Nat} (h : i ≠ j) :
    (l.set i a).getD j 0 = l.getD j 0 := by
  rw [List.getD_eq_getElem?_getD, List.getElem?_set_ne h, ← List.getD_eq_getElem?_getD]

/-- The `for cpu in cpus` loop of `generate_mask` on in-range CPUs:
it succeeds, preserves the segment count, sets in segment `i` (counted
from the most significant end, as the list is laid out) exactly the bits
demanded by the CPUs of group `n-1-i`, and keeps every segment value below
`2^32`. -/
theorem foldlM_setCpuBit_ok {n : Nat} : ∀ (cpus vals : List Nat),
    vals.length = n → (∀ c ∈ cpus, c / 32 < n) →
    ∃ vals', cpus.foldlM (setCpuBit n) vals = .ok vals' ∧ vals'.length = n ∧
      (∀ i, i < n → ∀ b, (vals'.getD i 0).testBit b =
        ((vals.getD i 0).testBit b ||
          cpus.any (fun c => c / 32 == n - 1 - i && c % 32 == b))) ∧
      (∀ i, i < n → vals.getD i 0 < 2 ^ 32 → vals'.getD i 0 < 2 ^ 32)
  | [], vals, hlen, _ => ⟨vals, rfl, hlen, by simp, fun _ _ h => h⟩
  | c₀ :: cpus, vals, hlen, hin => by
    have hgrp : c₀ / 32 < n := hin c₀ (List.mem_cons_self c₀ cpus)
    have hidx : n - 1 - c₀ / 32 < n := by omega
    set idx := n - 1 - c₀ / 32 with hidx_def
    set vals₁ := vals.set idx ((vals.getD idx 0) ||| (1 <<< (c₀ % 32))) with hv₁
    have hlen₁ : vals₁.length = n := by rw [hv₁, List.length_set, hlen]
    obtain ⟨vals', hfold, hlen', hbits, hbnd⟩ :=
      foldlM_setCpuBit_ok cpus vals₁ hlen₁ (fun c hc => hin c (List.mem_cons_of_mem c₀ hc))
    refine ⟨vals', ?_, hlen', ?_, ?_⟩
    · rw [List.foldlM_cons]
      have hstep : setCpuBit n vals c₀ = .ok vals₁ := by
        unfold setCpuBit
        rw [if_neg (by omega)]
      rw [hstep, bindOk]
      exact hfold
    · intro i hi b
      rw [hbits i hi b, List.any_cons]
      by_cases hieq : i = idx
      · subst hieq
        rw [hv₁, getD_set_self (by rw [hlen]; exact hidx)]
        rw [Nat.testBit_lor, Nat.one_shiftLeft, Nat.testBit_two_pow]
        have h1 : (c₀ / 32 == n - 1 - idx) = true := by
          simp only [beq_iff_eq]
          omega
        rw [h1]
        by_cases hb : c₀ % 32 = b
        · simp [hb]
        · have h2 : (c₀ % 32 == b) = false := by simpa using hb
          rw [h2]
          simp [hb, Bool.or_assoc, Bool.or_comm]
      · rw [hv₁, getD_set_ne (fun h => hieq h.symm)]
        have h1 : (c₀ / 32 == n - 1 - i) = false := by
          simp only [beq_eq_false_iff_ne, ne_eq]
          omega
        rw [h1]
        simp
    · intro i hi hv
      apply hbnd i hi
      by_cases hieq : i = idx
      · subst hieq
        rw [hv₁, getD_set_self (by rw [hlen]; exact hidx)]
        apply Nat.or_lt_two_pow hv
        rw [Nat.one_shiftLeft]
        exact Nat.pow_lt_pow_right (by omega) (Nat.mod_lt c₀ (by omega))
      · rw [hv₁, getD_set_ne (fun h => hieq h.symm)]
        exact hv

/-- The `for cpu in cpus` loop of `generate_mask` raises the range error
exactly when some CPU's 32-CPU group lies beyond the segment count. -/
theorem foldlM_setCpuBit_err {n : Nat} : ∀ (cpus vals : List Nat), vals.length = n →
    ((∃ c ∈ cpus, n ≤ c / 32) ↔
      ∃ c', cpus.foldlM (setCpuBit n) vals = .error (.cpuOutOfMask c'))
  | [], vals, _ => by
    constructor
    · rintro ⟨c, hc, _⟩
      exact absurd hc (List.not_mem_nil c)
    · rintro ⟨c', h⟩
      exact Except.noConfusion h
  | c₀ :: cpus, vals, hlen => by
    by_cases h₀ : n ≤ c₀ / 32
    · constructor
      · intro _
        refine ⟨c₀, ?_⟩
        rw [List.foldlM_cons]
        have hstep : setCpuBit n vals c₀ = .error (.cpuOutOfMask c₀) := by
          unfold setCpuBit
          rw [if_pos h₀]
        rw [hstep]
        rfl
      · intro _
        exact ⟨c₀, List.mem_cons_self c₀ cpus, h₀⟩
    · set vals₁ := vals.set (n - 1 - c₀ / 32) ((vals.getD (n - 1 - c₀ / 32) 0) |||
        (1 <<< (c₀ % 32))) with hv₁
      have hlen₁ : vals₁.length = n := by rw [hv₁, List.length_set, hlen]
      have hstep : setCpuBit n vals c₀ = .ok vals₁ := by
        unfold setCpuBit
        rw [if_neg h₀]
      have ih := foldlM_setCpuBit_err cpus vals₁ hlen₁
      rw [List.foldlM_cons, hstep, bindOk]
      constructor
      · rintro ⟨c, hc, hcn⟩
        rcases List.mem_cons.mp hc with rfl | hc
        · exact absurd hcn h₀
        · exact ih.mp ⟨c, hc, hcn⟩
      · intro h
        rcases ih.mpr h with ⟨c, hc, hcn⟩
        exact ⟨c, List.mem_cons_of_mem c₀ hc, hcn⟩

end SetCpuBitLemmas

section BlockLemmas

theorem mem_bitCpus {g v x : Nat} :
    x ∈ bitCpus (g, v) ↔ ∃ b, b < 32 ∧ x = g * 32 + b ∧ v.testBit b = true := by
  simp only [bitCpus, List.mem_map, List.mem_filter, List.mem_range]
  constructor
  · rintro ⟨b, ⟨hb, ht⟩, rfl⟩
    exact ⟨b, hb, rfl, ht⟩
  · rintro ⟨b, hb, rfl, ht⟩
    exact ⟨b, ⟨hb, ht⟩, rfl⟩

theorem bitCpus_sorted (p : Nat × Nat) : (bitCpus p).Sorted (· < ·) := by
  unfold bitCpus
  refine List.Pairwise.map _ ?_ (List.Pairwise.filter _ (List.sorted_lt_range 32))
  intro a b hab
  omega

theorem blockFlat_lb : ∀ (vs : List Nat) (k : Nat), ∀ x ∈ (List.enumFrom k vs).flatMap bitCpus,
    k * 32 ≤ x
  | [], _, x, hx => by simp [List.enumFrom] at hx
  | v :: vs, k, x, hx => by
    rw [show List.enumFrom k (v :: vs) = (k, v) :: List.enumFrom (k + 1) vs from rfl,
      List.flatMap_cons, List.mem_append] at hx
    rcases hx with hx | hx
    · obtain ⟨b, _, rfl, _⟩ := mem_bitCpus.mp hx
      omega
    · have := blockFlat_lb vs (k + 1) x hx
      omega

theorem blockFlat_sorted : ∀ (vs : List Nat) (k : Nat),
    ((List.enumFrom k vs).flatMap bitCpus).Sorted (· < ·)
  | [], _ => by simp [List.enumFrom]
  | v :: vs, k => by
    rw [show List.enumFrom k (v :: vs) = (k, v) :: List.enumFrom (k + 1) vs from rfl,
      List.flatMap_cons]
    rw [List.Sorted, List.pairwise_append]
    refine ⟨bitCpus_sorted (k, v), blockFlat_sorted vs (k + 1), ?_⟩
    intro a ha b hb
    obtain ⟨ba, _, rfl, _⟩ := mem_bitCpus.mp ha
    have := blockFlat_lb vs (k + 1) b hb
    omega

theorem mem_blockFlat : ∀ (vs : List Nat) (k x : Nat),
    x ∈ (List.enumFrom k vs).flatMap bitCpus ↔
      ∃ j, j < vs.length ∧ ∃ b, b < 32 ∧ x = (k + j) * 32 + b ∧ (vs.getD j 0).testBit b = true
  | [], k, x => by simp [List.enumFrom]
  | v :: vs, k, x => by
    rw [show List.enumFrom k (v :: vs) = (k, v) :: List.enumFrom (k + 1) vs from rfl,
      List.flatMap_cons, List.mem_append, mem_bitCpus, mem_blockFlat vs (k + 1) x]
    constructor
    · rintro (⟨b, hb, rfl, ht⟩ | ⟨j, hj, b, hb, rfl, ht⟩)
      · exact ⟨0, by simp, b, hb, by ring_nf, ht⟩
      · exact ⟨j + 1, by simpa using hj, b, hb, by ring_nf, ht⟩
    · rintro ⟨j, hj, b, hb, rfl, ht⟩
      cases j with
      | zero => exact Or.inl ⟨b, hb, by ring_nf, ht⟩
      | succ j' =>
        refine Or.inr ⟨j', by simpa using hj, b, hb, by ring_nf, ht⟩

theorem getD_reverse {l : List Nat} {i : Nat} (h : i < l.length) :
    l.reverse.getD i 0 = l.getD (l.length - 1 - i) 0 := by
  rw [List.getD_eq_getElem?_getD, List.getD_eq_getElem?_getD,
    List.getElem?_reverse (by simpa using h)]

theorem getD_replicate_zero {n i : Nat} : (List.replicate n (0 : Nat)).getD i 0 = 0 := by
  rw [List.getD_eq_getElem?_getD, List.getElem?_replicate]
  split <;> rfl

theorem mapM_hexListVal_map : ∀ (vs : List Nat), (∀ v ∈ vs, v < 2 ^ 32) →
    ((vs.map hex8).mapM hexListVal?) = some vs
  | [], _ => rfl
  | v :: vs, h => by
    rw [List.map_cons, List.mapM_cons, hexListVal?_hex8 (h v (List.mem_cons_self v vs)),
      mapM_hexListVal_map vs (fun x hx => h x (List.mem_cons_of_mem v hx))]
    rfl

end BlockLemmas

theorem bindSome {α β : Type} (a : α) (f : α → Option β) : (some a >>= f) = f a := rfl

/-- Core of claim C4: on a well-formed template whose width covers every
CPU, `generate_mask` succeeds and `mask_to_cpus` recovers exactly the
sorted, deduplicated CPU set. -/
theorem generated_mask_roundtrip {S : List Nat} {M : String} (hwf : maskFormatOk M.data = true)
    (hbound : ∀ c ∈ S, c / 32 < (splitOnChar ',' M.data).length) :
    ∃ mask, generate_mask S M = .ok mask ∧ mask_to_cpus mask = some (sortedDedup S) := by
  set n := (splitOnChar ',' M.data).length with hn
  have hn1 : 1 ≤ n := by
    rw [hn]
    cases h : splitOnChar ',' M.data with
    | nil => exact absurd h (splitOnChar_ne_nil ',' M.data)
    | cons x t => simp
  obtain ⟨vals', hfold, hlen', hbits, hbnd⟩ :=
    foldlM_setCpuBit_ok S (List.replicate n 0) (by simp) hbound
  have hvlt : ∀ v ∈ vals', v < 2 ^ 32 := by
    intro v hv
    obtain ⟨i, hi, hgi⟩ := List.mem_iff_getElem.mp hv
    have hgd : vals'.getD i 0 = v := by
      rw [List.getD_eq_getElem?_getD, List.getElem?_eq_getElem hi, hgi]
      rfl
    rw [← hgd]
    exact hbnd i (by omega) (by rw [getD_replicate_zero]; positivity)
  refine ⟨String.mk (joinChar ',' (vals'.map hex8)), ?_, ?_⟩
  · unfold generate_mask
    rw [if_neg (by rw [hwf]; simp), ← hn, hfold, bindOk]
    rfl
  · unfold mask_to_cpus
    show (splitOnChar ',' (joinChar ',' (vals'.map hex8))).mapM hexListVal? >>= _ = _
    have hsplit : splitOnChar ',' (joinChar ',' (vals'.map hex8)) = vals'.map hex8 := by
      apply splitOnChar_joinChar
      · intro h
        rw [List.map_eq_nil_iff] at h
        rw [h] at hlen'
        simp at hlen'
        omega
      · intro ch hch c hc
        rcases List.mem_map.mp hch with ⟨v, _, rfl⟩
        exact (hex8_chars c hc).1
    rw [hsplit, mapM_hexListVal_map vals' hvlt, bindSome]
    congr 1
    have henum : vals'.reverse.enum = List.enumFrom 0 vals'.reverse := rfl
    have hsortL : ((vals'.reverse.enum).flatMap bitCpus).Sorted (· < ·) := by
      rw [henum]; exact blockFlat_sorted vals'.reverse 0
    rw [pySorted_eq_of_sorted (hsortL.imp (fun h => Nat.le_of_lt h))]
    apply sorted_lt_ext _ _ hsortL (sorted_sortedDedup S)
    intro x
    rw [mem_sortedDedup, henum, mem_blockFlat]
    have hrevlen : vals'.reverse.length = n := by rw [List.length_reverse, hlen']
    constructor
    · rintro ⟨j, hj, b, hb, rfl, ht⟩
      rw [hrevlen] at hj
      rw [getD_reverse (by rw [hlen']; exact hj), hlen'] at ht
      rw [hbits (n - 1 - j) (by omega) b, getD_replicate_zero, Nat.zero_testBit,
        Bool.false_or] at ht
      rcases List.any_eq_true.mp ht with ⟨c, hc, hcp⟩
      rw [Bool.and_eq_true, beq_iff_eq, beq_iff_eq] at hcp
      have hdm := Nat.div_add_mod c 32
      have : c = (0 + j) * 32 + b := by omega
      rw [← this]
      exact hc
    · intro hx
      have hdiv : x / 32 < n := hbound x hx
      refine ⟨x / 32, by omega, x % 32, by omega, by
        have := Nat.div_add_mod x 32
        omega, ?_⟩
      rw [getD_reverse (by rw [hlen']; omega), hlen',
        hbits (n - 1 - x / 32) (by omega) (x % 32), getD_replicate_zero, Nat.zero_testBit,
        Bool.false_or]
      apply List.any_eq_true.mpr
      refine ⟨x, hx, ?_⟩
      rw [Bool.and_eq_true, beq_iff_eq, beq_iff_eq]
      omega

/-- `generate_mask` reads nothing from the template except its segment
count: bits already set in the template never reach the output. -/
theorem generate_mask_width_only {S : List Nat} {M M' : String}
    (hwf : maskFormatOk M.data = true) (hwf' : maskFormatOk M'.data = true)
    (hlen : (splitOnChar ',' M'.data).length = (splitOnChar ',' M.data).length) :
    generate_mask S M' = generate_mask S M := by
  unfold generate_mask
  rw [if_neg (by rw [hwf']; simp), if_neg (by rw [hwf]; simp), hlen]

theorem numSegs_pos (sep : Char) (s : List Char) : 1 ≤ (splitOnChar sep s).length := by
  cases h : splitOnChar sep s with
  | nil => exact absurd h (splitOnChar_ne_nil sep s)
  | cons x t => simp

/-- Claim C4: for every CPU set `S` and well-formed template mask `M` with
`w` segments, if every `c ∈ S` satisfies `c < 32*w` then
`mask_to_cpus (generate_mask S M)` is `S` sorted ascending without
duplicates; and `generate_mask` depends only on `S` and the segment count
of the template — bits already set in the template are discarded. -/
theorem c4_theorem :
    ∀ (S : List Nat) (M : String), maskFormatOk M.data = true →
      (∀ c ∈ S, c < 32 * (splitOnChar ',' M.data).length) →
      (∃ mask, generate_mask S M = .ok mask ∧ mask_to_cpus mask = some (sortedDedup S)) ∧
      (∀ M', maskFormatOk M'.data = true →
        (splitOnChar ',' M'.data).length = (splitOnChar ',' M.data).length →
        generate_mask S M' = generate_mask S M) := by
  intro S M hwf hbound
  refine ⟨generated_mask_roundtrip hwf (fun c hc => ?_),
    fun M' hwf' hlen => generate_mask_width_only hwf hwf' hlen⟩
  have := hbound c hc
  omega

/-- Claim C4 witness: CPUs `{33, 0, 1}` on the two-segment template
`"00000000,00000000"` round-trip to `[0, 1, 33]`, and the template
`"deadbeef,00000bad"` with stray bits set yields the same mask. -/
theorem c4_witness :
    (∃ mask, generate_mask [33, 0, 1, 0] "00000000,00000000" = .ok mask ∧
      mask_to_cpus mask = some (sortedDedup [33, 0, 1, 0])) ∧
    generate_mask [33, 0, 1, 0] "deadbeef,00000bad" =
      generate_mask [33, 0, 1, 0] "00000000,00000000" :=
  ⟨(c4_theorem [33, 0, 1, 0] "00000000,00000000" (by rfl) (by decide)).1,
    (c4_theorem [33, 0, 1, 0] "00000000,00000000" (by rfl) (by decide)).2
      "deadbeef,00000bad" (by rfl) (by rfl)⟩

/-- Claim C5: on a well-formed template, `generate_mask S M` raises the
range error exactly when some CPU of `S` has 32-CPU group index at or
beyond the template's segment count, and on success the output has exactly
the template's segment count with every segment exactly eight hex digits
— the codec never grows the mask. -/
theorem c5_theorem :
    ∀ (S : List Nat) (M : String), maskFormatOk M.data = true →
      ((∃ c ∈ S, (splitOnChar ',' M.data).length ≤ c / 32) ↔
        ∃ c', generate_mask S M = .error (.cpuOutOfMask c')) ∧
      ∀ out, generate_mask S M = .ok out →
        (splitOnChar ',' out.data).length = (splitOnChar ',' M.data).length ∧
        ∀ seg ∈ splitOnChar ',' out.data, seg.length = 8 ∧ seg.all isHexDigitL = true := by
  intro S M hwf
  set n := (splitOnChar ',' M.data).length with hn
  constructor
  · rw [foldlM_setCpuBit_err S (List.replicate n 0) (by simp)]
    constructor
    · rintro ⟨c', hc⟩
      refine ⟨c', ?_⟩
      unfold generate_mask
      rw [if_neg (by rw [hwf]; simp), ← hn, hc]
      rfl
    · rintro ⟨c', hc⟩
      unfold generate_mask at hc
      rw [if_neg (by rw [hwf]; simp), ← hn] at hc
      cases hfold : List.foldlM (setCpuBit n) (List.replicate n 0) S with
      | error e =>
        rw [hfold, bindErr] at hc
        injection hc with he
        exact ⟨c', by rw [he]⟩
      | ok vals =>
        rw [hfold, bindOk] at hc
        exact Except.noConfusion hc
  · intro out hout
    unfold generate_mask at hout
    rw [if_neg (by rw [hwf]; simp), ← hn] at hout
    cases hfold : List.foldlM (setCpuBit n) (List.replicate n 0) S with
    | error e =>
      rw [hfold, bindErr] at hout
      exact Except.noConfusion hout
    | ok vals =>
      rw [hfold, bindOk] at hout
      have hout' : out = String.mk (joinChar ',' (vals.map hex8)) := by
        cases hout
        rfl
      have hbound : ∀ c ∈ S, c / 32 < n := by
        intro c hc
        by_contra hge
        obtain ⟨c', he⟩ := (@foldlM_setCpuBit_err n S (List.replicate n 0) (by simp)).mp
          ⟨c, hc, by omega⟩
        rw [hfold] at he
        exact Except.noConfusion he
      obtain ⟨vals', hfold', hlen', _, _⟩ :=
        @foldlM_setCpuBit_ok n S (List.replicate n 0) (by simp) hbound
      rw [hfold] at hfold'
      cases hfold'
      have hsplit : splitOnChar ',' (joinChar ',' (vals.map hex8)) = vals.map hex8 := by
        apply splitOnChar_joinChar
        · intro h
          rw [List.map_eq_nil_iff] at h
          rw [h] at hlen'
          have := numSegs_pos ',' M.data
          simp at hlen'
          omega
        · intro ch hch c hc
          rcases List.mem_map.mp hch with ⟨v, _, rfl⟩
          exact (hex8_chars c hc).1
      rw [hout']
      constructor
      · show (splitOnChar ',' (joinChar ',' (vals.map hex8))).length = n
        rw [hsplit, List.length_map, hlen']
      · show ∀ seg ∈ splitOnChar ',' (joinChar ',' (vals.map hex8)), _
        rw [hsplit]
        intro seg hseg
        rcases List.mem_map.mp hseg with ⟨v, _, rfl⟩
        refine ⟨hex8_length v, List.all_eq_true.mpr ?_⟩
        intro c hc
        exact (hex8_chars c hc).2

/-- Claim C5 witness: on the one-segment template `"00000000"`, CPU 32 is
out of range, and the successful mask for `{0, 5}` keeps one segment of
eight hex digits. -/
theorem c5_witness :
    (∃ c', generate_mask [0, 32] "00000000" = .error (.cpuOutOfMask c')) ∧
    ((splitOnChar ',' ("00000020".data)).length = (splitOnChar ',' ("00000000".data)).length ∧
      ∀ seg ∈ splitOnChar ',' ("00000020".data), seg.length = 8 ∧ seg.all isHexDigitL = true) :=
  ⟨(c5_theorem [0, 32] "00000000" (by rfl)).1.mp ⟨32, by decide, by decide⟩,
    (c5_theorem [5] "00000000" (by rfl)).2 "00000020" (by rfl)⟩

/-! ### IRQ classifier and binder (msix.py) -/

/-- `str.lower()` on the ASCII repertoire. -/
def pyLower (s : List Char) : List Char := s.map Char.toLower

/-- Boolean prefix test on character lists. -/
def isPrefixL : List Char → List Char → Bool
  | [], _ => true
  | _ :: _, [] => false
  | p :: ps, c :: cs => p == c && isPrefixL ps cs

/-- Python's `pat in s` substring test. -/
def containsSubL (pat : List Char) : List Char → Bool
  | [] => isPrefixL pat []
  | c :: cs => isPrefixL pat (c :: cs) || containsSubL pat cs

/-- `IrqCpuBinder.is_virtio_irq` (msix.py:126-127): case-insensitive
substring test for `"virtio"`. -/
def is_virtio_irq (s : String) : Bool := containsSubL "virtio".data (pyLower s.data)

/-- `IrqCpuBinder.get_virtio_irq_type` (msix.py:129-135): `"input"` wins
over `"output"`, anything else is `"unknown"`. -/
def get_virtio_irq_type (s : String) : String :=
  if containsSubL "input".data (pyLower s.data) then "input"
  else if containsSubL "output".data (pyLower s.data) then "output"
  else "unknown"

/-- The eligibility filter of `IrqCpuBinder.bind_irq_to_cpu`
(msix.py:176-186): for a `virtio_net` driver only `input`-classified
interrupts survive; otherwise every interrupt is kept. -/
def valid_irqs (irqMap : List (Nat × String)) (driver : String) : List Nat :=
  (irqMap.filter (fun p =>
    if pyLower driver.data = "virtio_net".data
    then get_virtio_irq_type p.2 == "input" else true)).map (fun p => p.1)

/-- The pairing step of `IrqCpuBinder.bind_irq_to_cpu` (msix.py:188-204):
both sides are truncated to the shorter length and zipped positionally;
the second component is the truncation-warning flag (msix.py:198-201),
printed when the counts differ (no error is raised).  With no valid IRQ
the function reports an error message and binds nothing (msix.py:190-192). -/
def bind_irq_pairs (irqMap : List (Nat × String)) (cpuList : List Nat) (driver : String) :
    List (Nat × Nat) × Bool :=
  let vi := valid_irqs irqMap driver
  if vi.isEmpty then ([], false)
  else
    let mc := min vi.length cpuList.length
    ((vi.take mc).zip (cpuList.take mc), vi.length != cpuList.length)

section SubstringLemmas

theorem isPrefixL_iff : ∀ (p l : List Char), isPrefixL p l = true ↔ ∃ t, l = p ++ t
  | [], l => by simp [isPrefixL]
  | a :: ps, [] => by simp [isPrefixL]
  | a :: ps, c :: cs => by
    simp only [isPrefixL, Bool.and_eq_true, beq_iff_eq]
    rw [isPrefixL_iff ps cs]
    constructor
    · rintro ⟨rfl, t, rfl⟩
      exact ⟨t, rfl⟩
    · rintro ⟨t, h⟩
      injection h with h1 h2
      exact ⟨h1.symm, t, h2⟩

theorem containsSubL_iff : ∀ (pat l : List Char),
    containsSubL pat l = true ↔ ∃ pre post, l = pre ++ pat ++ post
  | pat, [] => by
    simp only [containsSubL]
    rw [isPrefixL_iff]
    constructor
    · rintro ⟨t, ht⟩
      exact ⟨[], t, ht⟩
    · rintro ⟨pre, post, h⟩
      have h' := h.symm
      rw [List.append_assoc, List.append_eq_nil] at h'
      rcases h' with ⟨rfl, h2⟩
      rw [List.append_eq_nil] at h2
      exact ⟨[], by simp [h2.1]⟩
  | pat, c :: cs => by
    simp only [containsSubL, Bool.or_eq_true]
    rw [isPrefixL_iff, containsSubL_iff pat cs]
    constructor
    · rintro (⟨t, ht⟩ | ⟨pre, post, hp⟩)
      · exact ⟨[], t, by simpa using ht⟩
      · exact ⟨c :: pre, post, by simp [hp]⟩
    · rintro ⟨pre, post, hp⟩
      cases pre with
      | nil => exact Or.inl ⟨post, by simpa using hp⟩
      | cons x pre' =>
        right
        injection hp with h1 h2
        exact ⟨pre', post, h2⟩

end SubstringLemmas

/-- Claim C8: `is_virtio_irq` is exactly the case-insensitive substring
test for `"virtio"`; `get_virtio_irq_type` classifies `input` before
`output` before `unknown` by case-insensitive substring tests; binding for
a `virtio_net` driver keeps exactly the `input`-classified interrupts
(`output` ones are excluded entirely), while for any other driver no
interrupt is filtered. -/
theorem c8_theorem :
    (∀ s : String, is_virtio_irq s = true ↔
      ∃ pre post, pyLower s.data = pre ++ "virtio".data ++ post) ∧
    (∀ s : String, get_virtio_irq_type s = "input" ↔
      ∃ pre post, pyLower s.data = pre ++ "input".data ++ post) ∧
    (∀ s : String, get_virtio_irq_type s = "output" ↔
      (¬ ∃ pre post, pyLower s.data = pre ++ "input".data ++ post) ∧
      ∃ pre post, pyLower s.data = pre ++ "output".data ++ post) ∧
    (∀ s : String, get_virtio_irq_type s = "unknown" ↔
      (¬ ∃ pre post, pyLower s.data = pre ++ "input".data ++ post) ∧
      ¬ ∃ pre post, pyLower s.data = pre ++ "output".data ++ post) ∧
    (∀ (m : List (Nat × String)) (d : String), pyLower d.data = "virtio_net".data →
      ∀ q, q ∈ valid_irqs m d ↔
        ∃ desc, (q, desc) ∈ m ∧ get_virtio_irq_type desc = "input") ∧
    (∀ (m : List (Nat × String)) (d : String), pyLower d.data ≠ "virtio_net".data →
      valid_irqs m d = m.map (fun p => p.1)) := by
  refine ⟨?_, ?_, ?_, ?_, ?_, ?_⟩
  · intro s
    rw [is_virtio_irq, containsSubL_iff]
  · intro s
    unfold get_virtio_irq_type
    by_cases hi : containsSubL "input".data (pyLower s.data) = true
    · rw [if_pos hi, ← containsSubL_iff]
      simp [hi]
    · rw [if_neg hi, ← containsSubL_iff]
      split <;> simp [hi]
  · intro s
    unfold get_virtio_irq_type
    by_cases hi : containsSubL "input".data (pyLower s.data) = true
    · rw [if_pos hi, ← containsSubL_iff, ← containsSubL_iff]
      simp [hi]
    · rw [if_neg hi, ← containsSubL_iff, ← containsSubL_iff]
      split <;> rename_i ho <;> simp [hi, ho]
  · intro s
    unfold get_virtio_irq_type
    by_cases hi : containsSubL "input".data (pyLower s.data) = true
    · rw [if_pos hi, ← containsSubL_iff, ← containsSubL_iff]
      simp [hi]
    · rw [if_neg hi, ← containsSubL_iff, ← containsSubL_iff]
      split <;> rename_i ho <;> simp [hi, ho]
  · intro m d hd q
    unfold valid_irqs
    have hpred : (fun p : Nat × String =>
        if pyLower d.data = "virtio_net".data
        then get_virtio_irq_type p.2 == "input" else true) =
        (fun p : Nat × String => get_virtio_irq_type p.2 == "input") := by
      funext p
      rw [if_pos hd]
    rw [hpred]
    constructor
    · intro hq
      rcases List.mem_map.mp hq with ⟨p, hp, rfl⟩
      rcases List.mem_filter.mp hp with ⟨hpm, hpf⟩
      exact ⟨p.2, hpm, by simpa using hpf⟩
    · rintro ⟨desc, hdm, hdt⟩
      apply List.mem_map.mpr
      refine ⟨(q, desc), List.mem_filter.mpr ⟨hdm, ?_⟩, rfl⟩
      simpa using hdt
  · intro m d hd
    unfold valid_irqs
    have : (fun p : Nat × String =>
        if pyLower d.data = "virtio_net".data
        then get_virtio_irq_type p.2 == "input" else true) = fun _ => true := by
      funext p
      rw [if_neg hd]
    rw [this, List.filter_true]

section AssignLemmas

theorem mapContains_append_single {m : List (Nat × List Nat)} {x : Nat × List Nat} {q : Nat} :
    mapContains (m ++ [x]) q = (mapContains m q || (x.1 == q)) := by
  unfold mapContains
  rw [List.any_append]
  simp

/-- The accumulation loop of `assign_cpus_to_queues` over distinct fresh
queues is a plain append of the round-robin pairs. -/
theorem assignFold_eq {cpus : List Nat} : ∀ (l : List (Nat × Nat)) (acc : List (Nat × List Nat)),
    (∀ p ∈ l, mapContains acc p.2 = false) → (l.map (fun p => p.2)).Nodup →
    l.foldl (fun m p => mapInsert m p.2 [cpus.getD (p.1 % cpus.length) 0]) acc =
      acc ++ l.map (fun p => (p.2, [cpus.getD (p.1 % cpus.length) 0]))
  | [], acc, _, _ => by simp
  | p₀ :: l, acc, habs, hnd => by
    rw [List.foldl_cons]
    have hc : mapContains acc p₀.2 = false := habs p₀ (List.mem_cons_self p₀ l)
    have hins : mapInsert acc p₀.2 [cpus.getD (p₀.1 % cpus.length) 0] =
        acc ++ [(p₀.2, [cpus.getD (p₀.1 % cpus.length) 0])] := by
      unfold mapInsert
      rw [if_neg (by rw [hc]; exact Bool.false_ne_true)]
    rw [List.map_cons, List.nodup_cons] at hnd
    have habs' : ∀ p ∈ l,
        mapContains (acc ++ [(p₀.2, [cpus.getD (p₀.1 % cpus.length) 0])]) p.2 = false := by
      intro p hp
      rw [mapContains_append_single]
      have h1 : mapContains acc p.2 = false := habs p (List.mem_cons_of_mem _ hp)
      have h2 : (p₀.2 == p.2) = false := by
        simp only [beq_eq_false_iff_ne, ne_eq]
        intro he
        exact hnd.1 (he ▸ List.mem_map.mpr ⟨p, hp, rfl⟩)
      simp [h1, h2]
    rw [hins, assignFold_eq l _ habs' hnd.2, List.append_assoc]
    rfl

theorem assign_eq {queues cpus : List Nat} (hnd : queues.Nodup) (hne : cpus ≠ []) :
    assign_cpus_to_queues queues cpus =
      .ok (queues.enum.map (fun p => (p.2, [cpus.getD (p.1 % cpus.length) 0]))) := by
  unfold assign_cpus_to_queues
  rw [if_neg (fun h => hne (List.length_eq_zero.mp h))]
  congr 1
  rw [assignFold_eq queues.enum [] (fun p _ => rfl) ?_]
  · rfl
  · rw [show (fun p : Nat × Nat => p.2) = (Prod.snd : Nat × Nat → Nat) from rfl,
      List.enum_map_snd]
    exact hnd

end AssignLemmas

/-- Claim C6: the two pairing policies are distinct.  `assign_cpus_to_queues`
maps `queues[i]` to the singleton `[cpus[i % len(cpus)]]` (modulo
wraparound) and raises on an empty CPU set, whereas `bind_irq_pairs` pairs
eligible IRQs and CPUs positionally up to the shorter length, dropping the
surplus with a truncation warning instead of an error. -/
theorem c6_theorem :
    (∀ queues : List Nat, assign_cpus_to_queues queues [] = .error .emptyCpuSet) ∧
    (∀ (queues cpus : List Nat), queues.Nodup → cpus ≠ [] →
      assign_cpus_to_queues queues cpus =
        .ok (queues.enum.map (fun p => (p.2, [cpus.getD (p.1 % cpus.length) 0])))) ∧
    (∀ (m : List (Nat × String)) (cl : List Nat) (d : String), valid_irqs m d ≠ [] →
      (bind_irq_pairs m cl d).1 = (valid_irqs m d).zip cl ∧
      (bind_irq_pairs m cl d).1.length = min (valid_irqs m d).length cl.length ∧
      ((valid_irqs m d).length ≠ cl.length → (bind_irq_pairs m cl d).2 = true)) := by
  refine ⟨fun queues => rfl, fun queues cpus hnd hne => assign_eq hnd hne, ?_⟩
  intro m cl d hvi
  have hie : (valid_irqs m d).isEmpty = false := by
    cases h : valid_irqs m d with
    | nil => exact absurd h hvi
    | cons x t => rfl
  have hzip : ((valid_irqs m d).take (min (valid_irqs m d).length cl.length)).zip
      (cl.take (min (valid_irqs m d).length cl.length)) = (valid_irqs m d).zip cl := by
    rw [List.zip_eq_zipWith, List.zip_eq_zipWith, ← List.take_zipWith]
    apply List.take_of_length_le
    rw [List.length_zipWith]
  refine ⟨?_, ?_, ?_⟩ <;>
    simp only [bind_irq_pairs, hie, Bool.false_eq_true, if_false]
  · exact hzip
  · rw [hzip, List.zip_eq_zipWith, List.length_zipWith]
  · intro hne
    simpa using hne

/-- Claim C6 witness: `distribute([0,1,2], [10,20]) = {0:[10], 1:[20],
2:[10]}` (modulo wraparound), while `bindIrqs([5,7,9], [1,2]) =
[(5,1),(7,2)]` with the surplus IRQ 9 dropped and the warning flag set. -/
theorem c6_witness :
    assign_cpus_to_queues [0, 1, 2] [10, 20] =
      .ok [(0, [10]), (1, [20]), (2, [10])] ∧
    (bind_irq_pairs [(5, "a"), (7, "b"), (9, "c")] [1, 2] "mlx5_core").1 = [(5, 1), (7, 2)] ∧
    (bind_irq_pairs [(5, "a"), (7, "b"), (9, "c")] [1, 2] "mlx5_core").2 = true := by
  refine ⟨?_, ?_, ?_⟩
  · rw [c6_theorem.2.1 [0, 1, 2] [10, 20] (by decide) (by decide)]
    rfl
  · rw [(c6_theorem.2.2 [(5, "a"), (7, "b"), (9, "c")] [1, 2] "mlx5_core" (by decide)).1]
    rfl
  · exact (c6_theorem.2.2 [(5, "a"), (7, "b"), (9, "c")] [1, 2] "mlx5_core"
      (by decide)).2.2 (by decide)

/-- Claim C8 witness: for the virtio driver the IRQ labelled
`"virtio0-input.0"` is eligible and the `output` one is not; for a
non-virtio driver nothing is filtered; `"virtio0-input.0"` is recognised
case-insensitively. -/
theorem c8_witness :
    (0 ∈ valid_irqs [(0, "virtio0-input.0"), (1, "virtio0-output.0")] "virtio_net" ↔
      ∃ desc, (0, desc) ∈ [(0, "virtio0-input.0"), (1, "virtio0-output.0")] ∧
        get_virtio_irq_type desc = "input") ∧
    valid_irqs [(5, "eth0-TxRx-0")] "mlx5_core" =
      [(5, "eth0-TxRx-0")].map (fun p => p.1) ∧
    (is_virtio_irq "VirtIO3-input.1" = true ↔
      ∃ pre post, pyLower ("VirtIO3-input.1").data = pre ++ "virtio".data ++ post) :=
  ⟨c8_theorem.2.2.2.2.1 [(0, "virtio0-input.0"), (1, "virtio0-output.0")] "virtio_net"
      (by rfl) 0,
    c8_theorem.2.2.2.2.2 [(5, "eth0-TxRx-0")] "mlx5_core" (by decide),
    c8_theorem.1 "VirtIO3-input.1"⟩

/-! ### Rate sampler (q.py:40-59) -/

/-- Python's `round(x, 2)`: round half to even at two decimal places.
(Python rounds the binary double nearest `x`; on the exact decimal values
compared in this development the two agree.) -/
def round2 (x : ℚ) : ℚ :=
  (if x * 100 - ⌊x * 100⌋ < 1 / 2 then (⌊x * 100⌋ : ℚ)
   else if x * 100 - ⌊x * 100⌋ > 1 / 2 then (⌊x * 100⌋ : ℚ) + 1
   else if ⌊x * 100⌋ % 2 = 0 then (⌊x * 100⌋ : ℚ) else (⌊x * 100⌋ : ℚ) + 1) / 100

/-- `prev_stats.get(queue, 0)` / `curr_stats.get(queue, 0)` (q.py:45-46). -/
def lookupCnt (m : List (Nat × Nat)) (q : Nat) : Nat :=
  ((m.find? (fun p => p.1 == q)).map (fun p => p.2)).getD 0

/-- The counter delta of `calculate_speed` (q.py:47-50): `curr - prev`,
corrected by exactly one 32-bit unsigned wraparound when negative. -/
def calc_diff (prevV currV : Nat) : Int :=
  if (currV : Int) - (prevV : Int) < 0 then (currV : Int) + (2 ^ 32 - (prevV : Int))
  else (currV : Int) - (prevV : Int)

/-- The per-queue rate of `calculate_speed` (q.py:52-55): `diff/interval`,
further divided by `1024*1024` when the counters are byte counts. -/
def speed_of (diff : Int) (interval : ℚ) (isBytes : Bool) : ℚ :=
  if isBytes then (diff : ℚ) / interval / (1024 * 1024) else (diff : ℚ) / interval

/-- `calculate_speed` (q.py:40-59): iterate over the sorted union of the
two snapshots' key sets (missing entries default to 0) and round each rate
to two decimal places. -/
def calculate_speed (prevStats currStats : List (Nat × Nat)) (interval : ℚ)
    (isBytes : Bool) : List (Nat × ℚ) :=
  (sortedDedup (prevStats.map (fun p => p.1) ++ currStats.map (fun p => p.1))).map
    (fun q => (q, round2 (speed_of (calc_diff (lookupCnt prevStats q) (lookupCnt currStats q))
      interval isBytes)))

/-- Claim C7: for every pair of snapshots and very id in the union of
their key sets (missing entries defaulting to 0), the diff is
`curr - prev`, corrected on underflow to `curr + (2^32 - prev)`; the rate
is `diff / interval`, additionally divided by `1024*1024` for byte units,
rounded to two decimals; `prev = 4294967290, curr = 5, interval = 1` gives
`diff = 11` and rate `11.0`. -/
theorem c7_theorem :
    (∀ p c : Nat, (p : Int) ≤ c → calc_diff p c = (c : Int) - (p : Int)) ∧
    (∀ p c : Nat, (c : Int) < p → calc_diff p c = (c : Int) + (2 ^ 32 - (p : Int))) ∧
    (∀ (prevStats currStats : List (Nat × Nat)) (interval : ℚ) (isBytes : Bool),
      (calculate_speed prevStats currStats interval isBytes).map (fun p => p.1) =
        sortedDedup (prevStats.map (fun p => p.1) ++ currStats.map (fun p => p.1))) ∧
    (∀ (prevStats currStats : List (Nat × Nat)) (interval : ℚ) (isBytes : Bool) (q : Nat),
      q ∈ sortedDedup (prevStats.map (fun p => p.1) ++ currStats.map (fun p => p.1)) →
      (q, round2 (speed_of (calc_diff (lookupCnt prevStats q) (lookupCnt currStats q))
          interval isBytes)) ∈ calculate_speed prevStats currStats interval isBytes) ∧
    calc_diff 4294967290 5 = 11 ∧
    calculate_speed [(0, 4294967290)] [(0, 5)] 1 false = [(0, 11)] := by
  refine ⟨?_, ?_, ?_, ?_, by decide, ?_⟩
  · intro p c h
    unfold calc_diff
    rw [if_neg (by omega)]
  · intro p c h
    unfold calc_diff
    rw [if_pos (by omega)]
  · intro prevStats currStats interval isBytes
    unfold calculate_speed
    rw [List.map_map]
    have hcomp : ((fun p : Nat × ℚ => p.1) ∘ fun q : Nat =>
        (q, round2 (speed_of (calc_diff (lookupCnt prevStats q) (lookupCnt currStats q))
          interval isBytes))) = id := funext fun q => rfl
    rw [hcomp, List.map_id]
  · intro prevStats currStats interval isBytes q hq
    unfold calculate_speed
    exact List.mem_map.mpr ⟨q, hq, rfl⟩
  · show _ = _
    norm_num [calculate_speed, sortedDedup, insertUnique, lookupCnt, calc_diff, speed_of,
      round2, List.find?]

/-- Claim C7 witness: the three hypothesis-bearing clauses evaluated at
the wraparound example of the spec. -/
theorem c7_witness :
    calc_diff 3 10 = (10 : Int) - (3 : Int) ∧
    calc_diff 4294967290 5 = (5 : Int) + (2 ^ 32 - (4294967290 : Int)) ∧
    (0, round2 (speed_of (calc_diff (lookupCnt [(0, 4294967290)] 0)
        (lookupCnt [(0, 5)] 0)) 1 false)) ∈
      calculate_speed [(0, 4294967290)] [(0, 5)] 1 false :=
  ⟨c7_theorem.1 3 10 (by decide), c7_theorem.2.1 4294967290 5 (by decide),
    c7_theorem.2.2.2.1 [(0, 4294967290)] [(0, 5)] 1 false 0 (by decide)⟩

/-! ### Error phasing of `config_xps` (net.py:325-394) -/

/-- The device-state collaborators of `config_xps` as oracles: whether the
NIC directory exists (`check_nic`), the TX queue count
(`get_tx_queue_count`, which may raise), the per-queue XPS mask read
(`get_xps_mask`, which may raise), and the per-queue write success
(`set_xps_mask`). -/
structure XpsEnv where
  nicOk : Bool
  txCount : Except Unit Nat
  readMask : Nat → Except Unit String
  writeOk : Nat → String → Bool

/-- `NicQueueConfig.config_xps_queue` (net.py:325-338): read the current
mask, encode, write; every exception is caught and turned into `False`.
Alongside the success flag, the list of device writes performed is
returned, so that "no write happened" is expressible. -/
def config_xps_queue (env : XpsEnv) (q : Nat) (cpus : List Nat) : Bool × List (Nat × String) :=
  match env.readMask q with
  | .error _ => (false, [])
  | .ok curr =>
    match generate_mask cpus curr with
    | .error _ => (false, [])
    | .ok nm => (env.writeOk q nm, [(q, nm)])

/-- `NicQueueConfig.config_xps` (net.py:340-394) on the explicit-mapping
path (`queue_str` given; the interactive fallback path without a mapping
is driven by terminal input and is outside this embedding).  The second
component is the accumulated device-write log. -/
def config_xps (env : XpsEnv) (queueStr : String) :
    Except NetErr (List Nat × List Nat) × List (Nat × String) :=
  if !env.nicOk then (.error .nicMissing, [])
  else
    match env.txCount with
    | .error _ => (.error .queueDirFail, [])
    | .ok total =>
      match parse_queue_cpu_map queueStr with
      | .error e => (.error e, [])
      | .ok qmap =>
        let targets := sortedDedup (qmap.map (fun p => p.1))
        if targets.any (fun q => total ≤ q) then
          (.error (.queueOutOfRange ((targets.filter (fun q => total ≤ q)).headD 0)), [])
        else
          let res := targets.foldl (fun acc q =>
            let r := config_xps_queue env q ((lookupMap qmap q).getD [])
            (if r.1 then (acc.1.1 ++ [q], acc.1.2) else (acc.1.1, acc.1.2 ++ [q]),
              acc.2 ++ r.2)) (([], []), [])
          (.ok res.1, res.2)

/-- The per-queue batch loop of `config_xps` accumulates the succeeded and
failed queues as filters of the target list and concatenates the write
logs, continuing past failures. -/
theorem batchFold_eq (env : XpsEnv) (qmap : List (Nat × List Nat)) :
    ∀ (ts : List Nat) (acc : (List Nat × List Nat) × List (Nat × String)),
    ts.foldl (fun acc q =>
        let r := config_xps_queue env q ((lookupMap qmap q).getD [])
        (if r.1 then (acc.1.1 ++ [q], acc.1.2) else (acc.1.1, acc.1.2 ++ [q]),
          acc.2 ++ r.2)) acc =
      ((acc.1.1 ++ ts.filter (fun q => (config_xps_queue env q ((lookupMap qmap q).getD [])).1),
        acc.1.2 ++ ts.filter (fun q => !(config_xps_queue env q ((lookupMap qmap q).getD [])).1)),
       acc.2 ++ ts.flatMap (fun q => (config_xps_queue env q ((lookupMap qmap q).getD [])).2))
  | [], acc => by simp
  | t :: ts, acc => by
    rw [List.foldl_cons, batchFold_eq env qmap ts]
    cases hr : (config_xps_queue env t ((lookupMap qmap t).getD [])).1 with
    | true =>
      rw [List.filter_cons_of_pos (by rw [hr]), List.filter_cons_of_neg (by rw [hr]; decide),
        List.flatMap_cons]
      simp [hr]
    | false =>
      rw [List.filter_cons_of_neg (by rw [hr]; exact Bool.false_ne_true),
        List.filter_cons_of_pos (by rw [hr]; decide), List.flatMap_cons]
      simp [hr]

/-- Claim C9: with the NIC present and the queue count readable, every
FormatError/RangeError/DuplicateError from mapping construction (and the
queue-range check) aborts `config_xps` before any device write (empty
write log), whereas per-queue I/O failures are caught per item: the batch
runs over every target queue, the failures land in the failure list, the
successes in the success list, and both lists are returned. -/
theorem c9_theorem :
    ∀ (env : XpsEnv) (qs : String) (total : Nat), env.nicOk = true → env.txCount = .ok total →
      (∀ e, parse_queue_cpu_map qs = .error e → config_xps env qs = (.error e, [])) ∧
      (∀ qmap, parse_queue_cpu_map qs = .ok qmap →
        (∃ q ∈ sortedDedup (qmap.map (fun p => p.1)), total ≤ q) →
        ∃ q', config_xps env qs = (.error (.queueOutOfRange q'), [])) ∧
      (∀ qmap, parse_queue_cpu_map qs = .ok qmap →
        (∀ q ∈ sortedDedup (qmap.map (fun p => p.1)), q < total) →
        config_xps env qs =
          (.ok ((sortedDedup (qmap.map (fun p => p.1))).filter
              (fun q => (config_xps_queue env q ((lookupMap qmap q).getD [])).1),
            (sortedDedup (qmap.map (fun p => p.1))).filter
              (fun q => !(config_xps_queue env q ((lookupMap qmap q).getD [])).1)),
           (sortedDedup (qmap.map (fun p => p.1))).flatMap
              (fun q => (config_xps_queue env q ((lookupMap qmap q).getD [])).2))) := by
  intro env qs total hnic htx
  refine ⟨?_, ?_, ?_⟩
  · intro e hparse
    simp only [config_xps, hnic, htx, hparse, Bool.not_true, Bool.false_eq_true, if_false]
  · intro qmap hparse hex
    refine ⟨((sortedDedup (qmap.map (fun p => p.1))).filter (fun q => total ≤ q)).headD 0, ?_⟩
    have hany : (sortedDedup (qmap.map (fun p => p.1))).any (fun q => total ≤ q) = true := by
      rcases hex with ⟨q, hq, hle⟩
      exact List.any_eq_true.mpr ⟨q, hq, by simpa using hle⟩
    simp only [config_xps, hnic, htx, hparse, Bool.not_true, Bool.false_eq_true, if_false,
      hany, if_true]
  · intro qmap hparse hall
    have hany : (sortedDedup (qmap.map (fun p => p.1))).any (fun q => total ≤ q) = false := by
      cases h : (sortedDedup (qmap.map (fun p => p.1))).any (fun q => total ≤ q) with
      | false => rfl
      | true =>
        rcases List.any_eq_true.mp h with ⟨q, hq, hle⟩
        have := hall q hq
        simp only [decide_eq_true_eq] at hle
        omega
    simp only [config_xps, hnic, htx, hparse, Bool.not_true, Bool.false_eq_true, if_false,
      hany, if_true, batchFold_eq env qmap]
    simp

/-- A concrete device environment for the C9 witness: four TX queues,
reading queue 2's mask fails (per-item IOError), all other reads return a
one-segment zero mask, and all writes succeed. -/
def xpsEnvDemo : XpsEnv where
  nicOk := true
  txCount := .ok 4
  readMask := fun q => if q = 2 then .error () else .ok "00000000"
  writeOk := fun _ _ => true

/-- Claim C9 witness: on `xpsEnvDemo`, the malformed mapping
`"0-1:5,1:6"` aborts with its parse error and an empty write log, while
the well-formed `"0-2::1"` runs the whole batch, with queue 2 (whose read
fails) in the failure list. -/
theorem c9_witness :
    config_xps xpsEnvDemo "0-1:5,1:6" = (.error (.invalidNumber "1:6"), []) ∧
    config_xps xpsEnvDemo "0-2::1" =
      (.ok ((sortedDedup ([(0, [1]), (1, [1]), (2, [1])].map (fun p => p.1))).filter
          (fun q => (config_xps_queue xpsEnvDemo q
            ((lookupMap [(0, [1]), (1, [1]), (2, [1])] q).getD [])).1),
        (sortedDedup ([(0, [1]), (1, [1]), (2, [1])].map (fun p => p.1))).filter
          (fun q => !(config_xps_queue xpsEnvDemo q
            ((lookupMap [(0, [1]), (1, [1]), (2, [1])] q).getD [])).1)),
       (sortedDedup ([(0, [1]), (1, [1]), (2, [1])].map (fun p => p.1))).flatMap
          (fun q => (config_xps_queue xpsEnvDemo q
            ((lookupMap [(0, [1]), (1, [1]), (2, [1])] q).getD [])).2)) :=
  ⟨(c9_theorem xpsEnvDemo "0-1:5,1:6" 4 rfl rfl).1 (.invalidNumber "1:6") (by rfl),
    (c9_theorem xpsEnvDemo "0-2::1" 4 rfl rfl).2.2 [(0, [1]), (1, [1]), (2, [1])]
      (by rfl) (by decide)⟩

/-! ### msix.py CPU-range validation (claim C10) -/

/-- The exit/raise sites of `IrqCpuBinder.validate_cpu_range` before the
system CPU-count bound. -/
inductive MsixErr where
  | cpuFormat                    -- CPU范围格式错误 (msix.py:87-89)
  | cpuRangeInvalid (s e : Nat)  -- CPU范围无效 start > end (msix.py:95-97)
  | unpack                       -- uncaught ValueError: part.split('-') is not a pair (msix.py:94)
  | intFail                      -- uncaught ValueError from int() (msix.py:94/100)
  deriving DecidableEq, Repr

/-- One token of the anchored regex `[0-9]+(?:-[0-9]+)?` (msix.py:87): a
maximal digit run, optionally followed by `-` and a nonempty digit run. -/
def strictTokOk (t : List Char) : Bool :=
  let a := t.takeWhile Char.isDigit
  let r := t.dropWhile Char.isDigit
  !a.isEmpty && (r.isEmpty || (r.head? == some '-' && !(r.drop 1).isEmpty &&
    (r.drop 1).all Char.isDigit))

/-- `re.match(r'^[0-9]+(?:-[0-9]+)?(?:,[0-9]+(?:-[0-9]+)?)*$', s)`
(msix.py:87): comma-separated tokens, each matching the token pattern
(tokens are comma-free, so the split reading is equivalent to the anchored
regex). -/
def strictOk (s : List Char) : Bool := (splitOnChar ',' s).all strictTokOk

/-- One iteration of the expansion loop of `validate_cpu_range`
(msix.py:92-100): `part.split('-')` is unpacked into exactly two `int`s
(anything else would raise an uncaught ValueError, modelled by `unpack` /
`intFail`), with `start > end` a hard error; a dash-free part is a single
`int`. -/
def validateToken (t : List Char) : Except MsixErr (List Nat) :=
  if t.contains '-' then
    match splitOnChar '-' t with
    | [a, b] =>
      match digitsToNat? a, digitsToNat? b with
      | some s, some e =>
        if s > e then .error (.cpuRangeInvalid s e)
        else .ok (List.range' s (e - s + 1))
      | _, _ => .error .intFail
    | _ => .error .unpack
  else
    match digitsToNat? t with
    | some n => .ok [n]
    | none => .error .intFail

/-- The expansion loop of `validate_cpu_range`, token by token. -/
def validateTokens : List (List Char) → Except MsixErr (List Nat)
  | [] => .ok []
  | t :: ts => do
    let ns ← validateToken t
    let rest ← validateTokens ts
    return ns ++ rest

/-- `IrqCpuBinder.validate_cpu_range` (msix.py:86-108) up to but not
including the system CPU-count bound (msix.py:102-106), returning the
sorted deduplicated `sorted(list(set(cpu_list)))` that the full function
returns as its third component. -/
def validate_cpu_range_pre (s : String) : Except MsixErr (List Nat) :=
  if !strictOk s.data then .error .cpuFormat
  else (validateTokens (splitOnChar ',' s.data)).map sortedDedup

/-- Claim C10, counterexample: the two implementations do not accept the
same strings — the queue tool's `parse_range` trims whitespace and accepts
`" 1"`, which the IRQ tool's regex gate rejects outright. -/
theorem c10_counterexample :
    parse_range " 1" = .ok [1] ∧ validate_cpu_range_pre " 1" = .error .cpuFormat :=
  ⟨rfl, rfl⟩

section C10Lemmas

theorem digit_not_whitespace {c : Char} (h : c.isDigit = true) : c.isWhitespace = false := by
  cases hw : c.isWhitespace with
  | false => rfl
  | true =>
    exfalso
    unfold Char.isWhitespace at hw
    simp only [Bool.or_eq_true, decide_eq_true_eq] at hw
    rcases hw with ((rfl | rfl) | rfl) | rfl <;> exact absurd h (by decide)

/-- Canonical shapes of a token matching the strict grammar. -/
theorem strictTokOk_cases {t : List Char} (h : strictTokOk t = true) :
    (t ≠ [] ∧ t.all Char.isDigit = true) ∨
    ∃ a b, t = a ++ '-' :: b ∧ a ≠ [] ∧ a.all Char.isDigit = true ∧
      b ≠ [] ∧ b.all Char.isDigit = true := by
  unfold strictTokOk at h
  simp only [Bool.and_eq_true, Bool.or_eq_true] at h
  obtain ⟨ha, hr⟩ := h
  have hsplit : t.takeWhile Char.isDigit ++ t.dropWhile Char.isDigit = t :=
    List.takeWhile_append_dropWhile Char.isDigit t
  have hane : t.takeWhile Char.isDigit ≠ [] := by
    intro he
    rw [he] at ha
    exact absurd ha (by decide)
  rcases hr with hre | hfull
  · left
    have hre' : t.dropWhile Char.isDigit = [] := by simpa using hre
    rw [hre', List.append_nil] at hsplit
    constructor
    · intro he
      rw [he, List.takeWhile_nil] at hane
      exact hane rfl
    · rw [← hsplit]
      exact List.all_eq_true.mpr (fun c hc => List.mem_takeWhile_imp hc)
  · right
    obtain ⟨⟨hh, hne⟩, hall⟩ := hfull
    obtain ⟨r', hr'⟩ : ∃ r', t.dropWhile Char.isDigit = '-' :: r' := by
      cases hd : t.dropWhile Char.isDigit with
      | nil => rw [hd] at hh; exact absurd hh (by decide)
      | cons x r' =>
        rw [hd] at hh
        simp only [List.head?_cons, Option.some.injEq, beq_iff_eq] at hh
        exact ⟨r', by rw [hh]⟩
    refine ⟨t.takeWhile Char.isDigit, r', by rw [← hr']; exact hsplit.symm, hane, ?_, ?_, ?_⟩
    · exact List.all_eq_true.mpr (fun c hc => List.mem_takeWhile_imp hc)
    · intro he
      rw [hr', he] at hne
      exact absurd hne (by decide)
    · rw [hr'] at hall
      simpa using hall

/-- Every character of a strict token is a digit or the dash, hence never
whitespace, so `strip()` is the identity on it. -/
theorem strictTok_trim {t : List Char} (h : strictTokOk t = true) : trimL t = t := by
  have hnw : ∀ c ∈ t, c.isWhitespace = false := by
    intro c hc
    rcases strictTokOk_cases h with ⟨_, hall⟩ | ⟨a, b, rfl, _, hada, _, hbd⟩
    · exact digit_not_whitespace (List.all_eq_true.mp hall c hc)
    · rcases List.mem_append.mp hc with hca | hcb
      · exact digit_not_whitespace (List.all_eq_true.mp hada c hca)
      · rcases List.mem_cons.mp hcb with rfl | hcb
        · decide
        · exact digit_not_whitespace (List.all_eq_true.mp hbd c hcb)
  unfold trimL
  have hdw : ∀ (l : List Char), (∀ c ∈ l, c.isWhitespace = false) →
      l.dropWhile Char.isWhitespace = l := by
    intro l hl
    cases l with
    | nil => rfl
    | cons c cs =>
      rw [List.dropWhile_cons, if_neg]
      rw [hl c (List.mem_cons_self c cs)]
      exact Bool.false_ne_true
  rw [hdw t hnw, hdw t.reverse (fun c hc => hnw c (List.mem_reverse.mp hc)),
    List.reverse_reverse]

/-- A digit list contains no dash. -/
theorem digits_no_dash {l : List Char} (h : l.all Char.isDigit = true) :
    ∀ c ∈ l, c ≠ '-' := by
  intro c hc he
  have := List.all_eq_true.mp h c hc
  rw [he] at this
  exact absurd this (by decide)

/-- On a strict token, the net.py and msix.py token parsers agree: both
succeed with the same expansion or both fail. -/
theorem token_equiv {t : List Char} (h : strictTokOk t = true) :
    (∃ ns, parseRangeToken t = .ok ns ∧ validateToken t = .ok ns) ∨
    ((∃ e₁, parseRangeToken t = .error e₁) ∧ ∃ e₂, validateToken t = .error e₂) := by
  rcases strictTokOk_cases h with ⟨hne, hall⟩ | ⟨a, b, rfl, hane, hada, hbne, hbd⟩
  · have hc : t.contains '-' = false := by
      cases hcc : t.contains '-' with
      | false => rfl
      | true =>
        rcases List.contains_iff_exists_mem_beq.mp hcc with ⟨c, hcm, hcb⟩
        have : ('-' : Char) = c := by simpa using hcb
        exact absurd (this ▸ hcm) (fun hm => digits_no_dash hall '-' hm rfl)
    have hsome : digitsToNat? t = some (digitsVal t) := by
      unfold digitsToNat?
      rw [if_pos]
      unfold isDigitsL
      rw [hall]
      simpa using hne
    left
    refine ⟨[digitsVal t], ?_, ?_⟩
    · unfold parseRangeToken
      rw [if_neg (by rw [hc]; exact Bool.false_ne_true), hsome]
    · unfold validateToken
      rw [if_neg (by rw [hc]; exact Bool.false_ne_true), hsome]
  · have hc : (a ++ '-' :: b).contains '-' = true := by
      apply List.contains_iff_exists_mem_beq.mpr
      exact ⟨'-', by simp, by simp⟩
    have hsplit : splitOnChar '-' (a ++ '-' :: b) = [a, b] := by
      rw [splitOnChar_append_sep '-' a b (digits_no_dash hada),
        splitOnChar_of_not_mem '-' b (digits_no_dash hbd)]
    have hsa : digitsToNat? a = some (digitsVal a) := by
      unfold digitsToNat?
      rw [if_pos]
      unfold isDigitsL
      rw [hada]
      simpa using hane
    have hsb : digitsToNat? b = some (digitsVal b) := by
      unfold digitsToNat?
      rw [if_pos]
      unfold isDigitsL
      rw [hbd]
      simpa using hbne
    by_cases hgt : digitsVal a > digitsVal b
    · right
      constructor
      · refine ⟨.startGtEnd (String.mk (a ++ '-' :: b)), ?_⟩
        unfold parseRangeToken
        rw [if_pos hc, hsplit]
        show (match digitsToNat? a, digitsToNat? b with
          | some s, some e => if s > e then _ else _
          | _, _ => _) = _
        rw [hsa, hsb]
        show (if digitsVal a > digitsVal b then _ else _) = _
        rw [if_pos hgt]
      · refine ⟨.cpuRangeInvalid (digitsVal a) (digitsVal b), ?_⟩
        unfold validateToken
        rw [if_pos hc, hsplit]
        show (match digitsToNat? a, digitsToNat? b with
          | some s, some e => if s > e then _ else _
          | _, _ => _) = _
        rw [hsa, hsb]
        show (if digitsVal a > digitsVal b then _ else _) = _
        rw [if_pos hgt]
    · left
      refine ⟨List.range' (digitsVal a) (digitsVal b - digitsVal a + 1), ?_, ?_⟩
      · unfold parseRangeToken
        rw [if_pos hc, hsplit]
        show (match digitsToNat? a, digitsToNat? b with
          | some s, some e => if s > e then _ else _
          | _, _ => _) = _
        rw [hsa, hsb]
        show (if digitsVal a > digitsVal b then _ else _) = _
        rw [if_neg hgt]
      · unfold validateToken
        rw [if_pos hc, hsplit]
        show (match digitsToNat? a, digitsToNat? b with
          | some s, some e => if s > e then _ else _
          | _, _ => _) = _
        rw [hsa, hsb]
        show (if digitsVal a > digitsVal b then _ else _) = _
        rw [if_neg hgt]

theorem tokens_equiv : ∀ (ts : List (List Char)), (∀ t ∈ ts, strictTokOk t = true) →
    (∃ ns, parseRangeTokens ts = .ok ns ∧ validateTokens ts = .ok ns) ∨
    ((∃ e₁, parseRangeTokens ts = .error e₁) ∧ ∃ e₂, validateTokens ts = .error e₂)
  | [], _ => Or.inl ⟨[], rfl, rfl⟩
  | t :: ts, h => by
    rcases token_equiv (h t (List.mem_cons_self t ts)) with ⟨ns, hp, hv⟩ | ⟨⟨e₁, hp⟩, e₂, hv⟩
    · rcases tokens_equiv ts (fun x hx => h x (List.mem_cons_of_mem t hx)) with
        ⟨ms, hps, hvs⟩ | ⟨⟨f₁, hps⟩, f₂, hvs⟩
      · left
        refine ⟨ns ++ ms, ?_, ?_⟩
        · show (parseRangeToken t >>= fun x => parseRangeTokens ts >>= fun y =>
            pure (x ++ y)) = _
          rw [hp, bindOk, hps, bindOk]
          rfl
        · show (validateToken t >>= fun x => validateTokens ts >>= fun y =>
            pure (x ++ y)) = _
          rw [hv, bindOk, hvs, bindOk]
          rfl
      · right
        constructor
        · refine ⟨f₁, ?_⟩
          show (parseRangeToken t >>= fun x => parseRangeTokens ts >>= fun y =>
            pure (x ++ y)) = _
          rw [hp, bindOk, hps, bindErr]
        · refine ⟨f₂, ?_⟩
          show (validateToken t >>= fun x => validateTokens ts >>= fun y =>
            pure (x ++ y)) = _
          rw [hv, bindOk, hvs, bindErr]
    · right
      constructor
      · refine ⟨e₁, ?_⟩
        show (parseRangeToken t >>= fun x => parseRangeTokens ts >>= fun y =>
          pure (x ++ y)) = _
        rw [hp, bindErr]
      · refine ⟨e₂, ?_⟩
        show (validateToken t >>= fun x => validateTokens ts >>= fun y =>
          pure (x ++ y)) = _
        rw [hv, bindErr]

end C10Lemmas

/-- Claim C10 (amended): on every string matching the strict grammar of
`validate_cpu_range` (comma-separated `\d+` or `\d+-\d+` tokens, no
whitespace, no blank entries), the two parsers agree — same acceptance and
the same sorted duplicate-free set.  They do not accept exactly the same
strings: `parse_range` additionally tolerates whitespace around tokens and
blank tokens, which the regex gate of `validate_cpu_range` rejects. -/
theorem c10_theorem :
    ∀ (s : String), strictOk s.data = true →
      ∀ l, parse_range s = .ok l ↔ validate_cpu_range_pre s = .ok l := by
  intro s hok l
  have htoks : ∀ t ∈ splitOnChar ',' s.data, strictTokOk t = true :=
    fun t ht => List.all_eq_true.mp hok t ht
  have hparts : pyParts s.data = splitOnChar ',' s.data := by
    unfold pyParts
    rw [List.map_congr_left (fun t ht => strictTok_trim (htoks t ht)), List.map_id']
    apply List.filter_eq_self.mpr
    intro t ht
    rcases strictTokOk_cases (htoks t ht) with ⟨hne, _⟩ | ⟨a, b, rfl, _, _, _, _⟩
    · simpa using hne
    · simp
  unfold parse_range parse_rangeL validate_cpu_range_pre
  rw [if_neg (by rw [hok]; simp), hparts]
  rcases tokens_equiv (splitOnChar ',' s.data) htoks with ⟨ns, h1, h2⟩ | ⟨⟨e₁, h1⟩, e₂, h2⟩
  · rw [h1, h2]
    constructor
    · intro h
      have h' : sortedDedup ns = l := by
        have hok2 : (Except.ok (sortedDedup ns) : Except NetErr (List Nat)) = .ok l := h
        injection hok2
      show (Except.ok (sortedDedup ns) : Except MsixErr (List Nat)) = .ok l
      rw [h']
    · intro h
      have h' : sortedDedup ns = l := by
        have hok2 : (Except.ok (sortedDedup ns) : Except MsixErr (List Nat)) = .ok l := h
        injection hok2
      show (Except.ok (sortedDedup ns) : Except NetErr (List Nat)) = .ok l
      rw [h']
  · rw [h1, h2]
    constructor <;> intro h <;> exact absurd h (by simp [Except.map])

/-- Claim C10 witness: the equivalence evaluated at `"0,2-4,6"`. -/
theorem c10_witness : validate_cpu_range_pre "0,2-4,6" = .ok [0, 2, 3, 4, 6] := by
  have h := c10_theorem "0,2-4,6" (by rfl) [0, 2, 3, 4, 6]
  exact h.mp (by rfl)
